import Mathlib

/-
Verification of the concurrent_cache library (cetlib): a shallow embedding of
`concurrent_cache.h`, `cache_handle.h` and `concurrent_cache_entry.h` under a
sequential (interleaved) execution model, together with proofs of the
specification's claims about it.

Modelling conventions:
  * `std::size_t` and `unsigned int` are `Nat` with explicit `% 2^64` resp.
    `% 2^32` wraparound where the source can overflow.
  * The two TBB maps are association lists whose list order is the iteration
    order; both maps keep keys unique, so erase-by-key is modelled as a filter.
  * `std::shared_ptr<entry_count>` identity is modelled by an index (`cid`)
    into a heap `ctrs` of counter records; `detail::make_counter` appends a
    fresh record, so pointer equality coincides with index equality.
  * A `cache_handle` stores either no pointer or the pointer to a map node;
    a node's identity is the `cid` of the counter it was created with (each
    node receives a fresh counter exactly once, at creation).
  * Exceptions are `Except CacheError`.
-/

namespace ConcurrentCache

/-- Modulus of the C++ `unsigned int` use count. -/
def uintMod : Nat := 2 ^ 32

/-- Modulus of the C++ `std::size_t` sequence counter. -/
def sizeMod : Nat := 2 ^ 64

/-- Embedding of `cet::detail::entry_count`: an immutable sequence number
(`std::size_t`) and an atomic use count (`unsigned int`). -/
structure EntryCount where
  sequence_number : Nat
  use_count : Nat
deriving DecidableEq, Repr

/-- Embedding of one node of the primary map `entries_` (a
`tbb::concurrent_hash_map` slot): the key, the stored value and the index of
the node's shared counter record in the counter heap. -/
structure CEntry (K V : Type) where
  key : K
  val : V
  cid : Nat
deriving DecidableEq, Repr

/-- State of a `cet::concurrent_cache<K, V>` object: the atomic
`next_sequence_number_`, the heap of counter records ever created, the primary
map `entries_` and the auxiliary map `counts_` (key to counter index). -/
structure Cache (K V : Type) where
  next : Nat
  ctrs : List EntryCount
  entries : List (CEntry K V)
  counts : List (K × Nat)
deriving DecidableEq, Repr

/-- Freshly constructed cache: counter at zero, both maps empty. -/
def Cache.init (K V : Type) : Cache K V := ⟨0, [], [], []⟩

/-- Read the use count stored in the counter record at index `i`. -/
def useAt (ctrs : List EntryCount) (i : Nat) : Nat :=
  match ctrs[i]? with
  | some ec => ec.use_count
  | none => 0

/-- Read the sequence number stored in the counter record at index `i`. -/
def seqAt (ctrs : List EntryCount) (i : Nat) : Nat :=
  match ctrs[i]? with
  | some ec => ec.sequence_number
  | none => 0

/-- Embedding of `entry_count::use_count++` (wrapping `unsigned` increment). -/
def incAt (ctrs : List EntryCount) (i : Nat) : List EntryCount :=
  match ctrs[i]? with
  | some ec => ctrs.set i { ec with use_count := (ec.use_count + 1) % uintMod }
  | none => ctrs

/-- Embedding of `entry_count::use_count--` (wrapping `unsigned` decrement). -/
def decAt (ctrs : List EntryCount) (i : Nat) : List EntryCount :=
  match ctrs[i]? with
  | some ec => ctrs.set i { ec with use_count := (ec.use_count + (uintMod - 1)) % uintMod }
  | none => ctrs

/-- Embedding of `cet::cache_handle<V>`: the `entry_` pointer is either null
or the address of a live map node, identified by its counter index. -/
abbrev Handle : Type := Option Nat

/-- Error kinds surfaced by the library (`cet::exception` categories).
`danglingCEntry` marks the one situation that is undefined behaviour in the
source (reading through a non-null handle whose node has been erased); no
claim treats that branch as defined behaviour. -/
inductive CacheError where
  | invalidHandle
  | ambiguousSupport
  | emptyEntry
  | danglingCEntry
deriving DecidableEq, Repr

/-- Embedding of `cache_handle::invalidate()`: decrement and detach when a
node is referenced, otherwise do nothing. -/
def invalidateHandle (ctrs : List EntryCount) (h : Handle) :
    List EntryCount × Handle :=
  match h with
  | none => (ctrs, none)
  | some cid => (decAt ctrs cid, none)

/-- Embedding of the copy constructor `cache_handle(cache_handle const&)`:
copy the pointer and increment when it is non-null. -/
def copyHandle (ctrs : List EntryCount) (h : Handle) :
    List EntryCount × Handle :=
  match h with
  | none => (ctrs, none)
  | some cid => (incAt ctrs cid, some cid)

/-- Embedding of `cache_handle::operator=`: when both handles carry the same
`entry_` pointer, return immediately without touching any count; otherwise
invalidate (decrementing the outgoing node, if any), adopt the incoming
pointer and increment the incoming node, if any. -/
def assignHandle (ctrs : List EntryCount) (h other : Handle) :
    List EntryCount × Handle :=
  if h = other then
    (ctrs, h)
  else
    let dec1 := (invalidateHandle ctrs h).1
    match other with
    | none => (dec1, none)
    | some cid => (incAt dec1 cid, some cid)

/-- Embedding of `cache_handle::operator*`: throw `InvalidHandle` on a null
handle, otherwise return the node's stored value. A non-null pointer to an
erased node is undefined behaviour in the source (a dangling `exempt_ptr`);
the model tags it `danglingCEntry` and no theorem relies on that branch. -/
def derefHandle {K V : Type} (c : Cache K V) (h : Handle) : Except CacheError V :=
  match h with
  | none => .error .invalidHandle
  | some cid =>
    match c.entries.find? (fun e => decide (e.cid = cid)) with
    | some e => .ok e.val
    | none => .error .danglingCEntry

/-- Primary map cardinality, `concurrent_cache::size()`. -/
def Cache.size {K V : Type} (c : Cache K V) : Nat := c.entries.length

/-- Auxiliary map cardinality, `concurrent_cache::capacity()`. -/
def Cache.capacity {K V : Type} (c : Cache K V) : Nat := c.counts.length

/-- Embedding of `concurrent_cache::empty()`. -/
def Cache.isEmpty {K V : Type} (c : Cache K V) : Bool := c.entries.isEmpty

/-- Embedding of `concurrent_cache::emplace(k, value)`: insert under the
per-key write lock; when the key already exists, return a handle to the
cached node; otherwise draw a sequence number from the atomic counter
(`fetch_add`), create a fresh counter record, store the new node, publish the
key-to-counter row in the auxiliary map (inserting, or overwriting the row of
a previously orphaned key), and return a handle to the node.  Handle
construction increments the node's use count. -/
def emplace {K V : Type} [DecidableEq K] (c : Cache K V) (k : K) (v : V) :
    Handle × Cache K V :=
  match c.entries.find? (fun e => decide (e.key = k)) with
  | some e => (some e.cid, { c with ctrs := incAt c.ctrs e.cid })
  | none =>
    let seq := c.next % sizeMod
    let cid := c.ctrs.length
    let ctrs1 := c.ctrs ++ [⟨seq, 0⟩]
    let counts1 :=
      if c.counts.any (fun p => decide (p.1 = k)) then
        c.counts.map (fun p => if p.1 = k then (k, cid) else p)
      else
        c.counts ++ [(k, cid)]
    (some cid,
      { next := (c.next + 1) % sizeMod
        ctrs := incAt ctrs1 cid
        entries := c.entries ++ [⟨k, v, cid⟩]
        counts := counts1 })

/-- Embedding of `concurrent_cache::at(k)` (named `atKey` because `at` is a
reserved word): on a hit return a handle to the node (incrementing its use
count while the read lock is held), on a miss return a null handle. -/
def atKey {K V : Type} [DecidableEq K] (c : Cache K V) (k : K) :
    Handle × Cache K V :=
  match c.entries.find? (fun e => decide (e.key = k)) with
  | some e => (some e.cid, { c with ctrs := incAt c.ctrs e.cid })
  | none => (none, c)

/-- Embedding of `concurrent_cache::entry_for(t)`: scan the auxiliary map for
keys whose `supports(t)` holds (the probe is pre-applied, so the predicate is
a boolean function of the key); return a null handle on zero matches, throw
on more than one match, and defer to `at` on exactly one match. -/
def entryFor {K V : Type} [DecidableEq K] (c : Cache K V) (sup : K → Bool) :
    Except CacheError (Handle × Cache K V) :=
  match (c.counts.filter (fun p => sup p.1)).map Prod.fst with
  | [] => .ok (none, c)
  | [m] => .ok (atKey c m)
  | _ :: _ :: _ => .error .ambiguousSupport

/-- Embedding of `concurrent_cache::unused_entries_()`: iterate the auxiliary
map and collect `(sequence_number, key)` for every row whose counter reads
zero.  (A row whose counter index is out of range cannot arise from the
operations; the model skips it.) -/
def unusedEntries {K V : Type} (c : Cache K V) : List (Nat × K) :=
  c.counts.filterMap fun p =>
    match c.ctrs[p.2]? with
    | some ec => if ec.use_count = 0 then some (ec.sequence_number, p.1) else none
    | none => none

/-- Comparator contract of `std::sort(..., std::greater<>{})` on
`std::pair<std::size_t, K>`: the output is sorted with respect to the
reflexive lexicographic "greater or equal" relation. -/
def pairGE {K : Type} [LinearOrder K] (a b : Nat × K) : Prop :=
  b.1 < a.1 ∨ (b.1 = a.1 ∧ b.2 ≤ a.2)

instance instDecPairGE {K : Type} [LinearOrder K] : DecidableRel (@pairGE K _) :=
  fun a b => inferInstanceAs (Decidable (b.1 < a.1 ∨ (b.1 = a.1 ∧ b.2 ≤ a.2)))

instance instTotalPairGE {K : Type} [LinearOrder K] : IsTotal (Nat × K) pairGE := by
  constructor
  intro a b
  rcases lt_trichotomy a.1 b.1 with h | h | h
  · exact Or.inr (Or.inl h)
  · rcases le_total a.2 b.2 with h2 | h2
    · exact Or.inr (Or.inr ⟨h, h2⟩)
    · exact Or.inl (Or.inr ⟨h.symm, h2⟩)
  · exact Or.inl (Or.inl h)

instance instTransPairGE {K : Type} [LinearOrder K] : IsTrans (Nat × K) pairGE := by
  constructor
  rintro a b c (h1 | ⟨h1, h1'⟩) (h2 | ⟨h2, h2'⟩)
  · exact Or.inl (h2.trans h1)
  · exact Or.inl (lt_of_le_of_lt (le_of_eq h2) h1)
  · exact Or.inl (lt_of_lt_of_le h2 (le_of_eq h1))
  · exact Or.inr ⟨h2.trans h1, h2'.trans h1'⟩

/-- Descending sort used by the retention policy
(`std::sort(begin, end, std::greater<>{})`). -/
def sortDescBySeq {K : Type} [LinearOrder K] (l : List (Nat × K)) : List (Nat × K) :=
  List.insertionSort pairGE l

/-- Embedding of `concurrent_cache::drop_unused_but_last(keep_last)`: snapshot
the unused rows, sort them descending, return unchanged when the snapshot has
at most `keep_last` elements, otherwise erase from the primary map the key of
every snapshot element from index `keep_last` on.  (Keys are unique in a TBB
hash map, so erase-by-key is a filter.) -/
def dropUnusedButLast {K V : Type} [DecidableEq K] [LinearOrder K]
    (c : Cache K V) (keepLast : Nat) : Cache K V :=
  if (sortDescBySeq (unusedEntries c)).length ≤ keepLast then c
  else
    { c with
      entries :=
        ((sortDescBySeq (unusedEntries c)).drop keepLast).foldl
          (fun es p => es.filter (fun e => decide (e.key ≠ p.2))) c.entries }

/-- Embedding of `concurrent_cache::drop_unused()`. -/
def dropUnused {K V : Type} [DecidableEq K] [LinearOrder K] (c : Cache K V) :
    Cache K V :=
  dropUnusedButLast c 0

/-- Embedding of `concurrent_cache::shrink_to_fit()` with its orphan-row
lookup repaired: the source's `find_if` predicate reads `pr.second == key`,
which compares the `entry_count_ptr` of an auxiliary row with a key of type
`K` and is ill-formed once instantiated; the file's own overview ("reset the
auxiliary data member to the appropriate size") and the specification intend
`pr.first == key`, which is what this definition performs: after
`drop_unused()`, remove from the auxiliary map the first row of every stale
`(sequence_number, key)` pair and rebuild the map from the remaining rows. -/
def shrinkToFit {K V : Type} [DecidableEq K] [LinearOrder K] (c : Cache K V) :
    Cache K V :=
  let c1 := dropUnused c
  let stale := unusedEntries c1
  let rows := stale.foldl (fun l p => l.eraseP (fun q => decide (q.1 = p.2))) c1.counts
  { c1 with counts := rows }

/-- Association-list lookup in the auxiliary map (first row with the key). -/
def lookupKey {K : Type} [DecidableEq K] (l : List (K × Nat)) (k : K) : Option Nat :=
  (l.find? (fun p => decide (p.1 = k))).map Prod.snd

/-- Number of live handles currently referencing the node with counter index
`cid`. -/
def countRefs (hs : List Handle) (cid : Nat) : Nat :=
  (hs.filter (fun h => decide (h = some cid))).length

/-- Client-visible operations of the library, interleaved sequentially.  The
handle-valued operations append the returned handle to the ambient handle
list; `copyOp i` copy-constructs a handle from handle `i`; `assignOp i j`
performs `handles[i] = handles[j]`; `invalidateOp i` covers both explicit
invalidation and handle destruction at scope exit. -/
inductive Op (K V : Type) where
  | emplaceOp (k : K) (v : V)
  | getOp (k : K)
  | copyOp (i : Nat)
  | assignOp (i j : Nat)
  | invalidateOp (i : Nat)
  | dropOp (n : Nat)
deriving DecidableEq, Repr

/-- A cache together with all client handles created so far (invalidated
handles stay in the list as `none`). -/
structure TState (K V : Type) where
  cache : Cache K V
  handles : List Handle
deriving DecidableEq, Repr

/-- Small-step semantics of the operations over a cache and its handles. -/
def step {K V : Type} [DecidableEq K] [LinearOrder K]
    (s : TState K V) : Op K V → TState K V
  | .emplaceOp k v =>
    let hc := emplace s.cache k v
    ⟨hc.2, s.handles ++ [hc.1]⟩
  | .getOp k =>
    let hc := atKey s.cache k
    ⟨hc.2, s.handles ++ [hc.1]⟩
  | .copyOp i =>
    match s.handles[i]? with
    | some h =>
      let ch := copyHandle s.cache.ctrs h
      ⟨{ s.cache with ctrs := ch.1 }, s.handles ++ [ch.2]⟩
    | none => s
  | .assignOp i j =>
    match s.handles[i]?, s.handles[j]? with
    | some h, some g =>
      let ah := assignHandle s.cache.ctrs h g
      ⟨{ s.cache with ctrs := ah.1 }, s.handles.set i ah.2⟩
    | _, _ => s
  | .invalidateOp i =>
    match s.handles[i]? with
    | some h =>
      let ih := invalidateHandle s.cache.ctrs h
      ⟨{ s.cache with ctrs := ih.1 }, s.handles.set i ih.2⟩
    | none => s
  | .dropOp n => ⟨dropUnusedButLast s.cache n, s.handles⟩

/-- Run a list of operations from the freshly constructed cache. -/
def run {K V : Type} [DecidableEq K] [LinearOrder K] (ops : List (Op K V)) :
    TState K V :=
  ops.foldl step ⟨Cache.init K V, []⟩

/-- State invariant maintained by every operation (the spec's I1, I2, I4, I5,
I6 and the liveness of handles):
  * keys of the primary map are unique, as are keys of the auxiliary map;
  * counter indices of auxiliary rows are unique and in range, and so are
    the counter indices of primary nodes;
  * every primary node's counter is in range and is exactly the counter of
    the auxiliary row of its key;
  * every non-null handle points to a live primary node;
  * every counter's use count equals the number of live handles on its node;
  * the atomic sequence counter and the stamped sequence numbers record the
    creation order of the counter heap. -/
def Inv {K V : Type} [DecidableEq K] (s : TState K V) : Prop :=
  ((s.cache.entries.map (fun e => e.key)).Nodup
    ∧ (s.cache.counts.map Prod.fst).Nodup
    ∧ (s.cache.counts.map Prod.snd).Nodup
    ∧ (s.cache.entries.map (fun e => e.cid)).Nodup)
  ∧ ((∀ e ∈ s.cache.entries,
        e.cid < s.cache.ctrs.length ∧ lookupKey s.cache.counts e.key = some e.cid)
    ∧ (∀ p ∈ s.cache.counts, p.2 < s.cache.ctrs.length))
  ∧ ((∀ h ∈ s.handles, ∀ cid ∈ h,
        ∃ e ∈ s.cache.entries, e.cid = cid)
    ∧ (∀ i : Nat, i < s.cache.ctrs.length →
        useAt s.cache.ctrs i = countRefs s.handles i))
  ∧ (s.cache.next = s.cache.ctrs.length % sizeMod
    ∧ (∀ i : Nat, i < s.cache.ctrs.length → seqAt s.cache.ctrs i = i % sizeMod))

instance instDecInv {K V : Type} [DecidableEq K] [DecidableEq V] (s : TState K V) :
    Decidable (Inv s) := by
  unfold Inv
  infer_instance

/-! Basic lemmas about the counter heap. -/

theorem length_incAt (ctrs : List EntryCount) (i : Nat) :
    (incAt ctrs i).length = ctrs.length := by
  unfold incAt
  cases ctrs[i]? <;> simp

theorem length_decAt (ctrs : List EntryCount) (i : Nat) :
    (decAt ctrs i).length = ctrs.length := by
  unfold decAt
  cases ctrs[i]? <;> simp

theorem useAt_incAt (ctrs : List EntryCount) (i j : Nat) (hi : i < ctrs.length) :
    useAt (incAt ctrs i) j
      = if j = i then (useAt ctrs i + 1) % uintMod else useAt ctrs j := by
  unfold incAt useAt
  rw [List.getElem?_eq_getElem hi]
  by_cases hij : j = i
  · subst hij
    simp [List.getElem?_set_self', List.getElem?_eq_getElem hi]
  · rw [List.getElem?_set_ne (fun hc => hij hc.symm)]
    simp [hij]

theorem useAt_decAt (ctrs : List EntryCount) (i j : Nat) (hi : i < ctrs.length) :
    useAt (decAt ctrs i) j
      = if j = i then (useAt ctrs i + (uintMod - 1)) % uintMod else useAt ctrs j := by
  unfold decAt useAt
  rw [List.getElem?_eq_getElem hi]
  by_cases hij : j = i
  · subst hij
    simp [List.getElem?_set_self', List.getElem?_eq_getElem hi]
  · rw [List.getElem?_set_ne (fun hc => hij hc.symm)]
    simp [hij]

theorem useAt_incAt_oob (ctrs : List EntryCount) (i j : Nat) (hi : ctrs.length ≤ i) :
    useAt (incAt ctrs i) j = useAt ctrs j := by
  unfold incAt
  rw [List.getElem?_eq_none hi]

theorem seqAt_set (ctrs : List EntryCount) (i j : Nat) (ec' : EntryCount)
    (hseq : ec'.sequence_number = seqAt ctrs i) :
    seqAt (ctrs.set i ec') j = seqAt ctrs j := by
  unfold seqAt at hseq ⊢
  by_cases hij : j = i
  · subst hij
    rw [List.getElem?_set_self']
    cases hj : ctrs[j]? with
    | none => rfl
    | some ec =>
      rw [hj] at hseq
      simpa using hseq
  · rw [List.getElem?_set_ne (fun hc => hij hc.symm)]

theorem seqAt_incAt (ctrs : List EntryCount) (i j : Nat) :
    seqAt (incAt ctrs i) j = seqAt ctrs j := by
  unfold incAt
  cases hi : ctrs[i]? with
  | none => rfl
  | some ec =>
    apply seqAt_set
    unfold seqAt
    rw [hi]

theorem seqAt_decAt (ctrs : List EntryCount) (i j : Nat) :
    seqAt (decAt ctrs i) j = seqAt ctrs j := by
  unfold decAt
  cases hi : ctrs[i]? with
  | none => rfl
  | some ec =>
    apply seqAt_set
    unfold seqAt
    rw [hi]

theorem useAt_append_left (ctrs : List EntryCount) (ec : EntryCount) (j : Nat)
    (hj : j < ctrs.length) : useAt (ctrs ++ [ec]) j = useAt ctrs j := by
  unfold useAt
  rw [List.getElem?_append_left hj]

theorem useAt_append_last (ctrs : List EntryCount) (ec : EntryCount) :
    useAt (ctrs ++ [ec]) ctrs.length = ec.use_count := by
  unfold useAt
  simp

theorem seqAt_append_left (ctrs : List EntryCount) (ec : EntryCount) (j : Nat)
    (hj : j < ctrs.length) : seqAt (ctrs ++ [ec]) j = seqAt ctrs j := by
  unfold seqAt
  rw [List.getElem?_append_left hj]

theorem seqAt_append_last (ctrs : List EntryCount) (ec : EntryCount) :
    seqAt (ctrs ++ [ec]) ctrs.length = ec.sequence_number := by
  unfold seqAt
  simp

/-! Basic lemmas about reference counting over the handle list. -/

theorem countRefs_nil (cid : Nat) : countRefs [] cid = 0 := rfl

theorem countRefs_cons (a : Handle) (tl : List Handle) (cid : Nat) :
    countRefs (a :: tl) cid
      = (if a = some cid then 1 else 0) + countRefs tl cid := by
  unfold countRefs
  rw [List.filter_cons]
  by_cases ha : a = some cid <;> simp [ha, Nat.add_comm]

theorem countRefs_append (hs : List Handle) (h : Handle) (cid : Nat) :
    countRefs (hs ++ [h]) cid
      = countRefs hs cid + (if h = some cid then 1 else 0) := by
  unfold countRefs
  rw [List.filter_append]
  by_cases hh : h = some cid <;> simp [hh, List.filter_cons]

theorem countRefs_le_length (hs : List Handle) (cid : Nat) :
    countRefs hs cid ≤ hs.length :=
  List.length_filter_le _ _

theorem countRefs_pos_of_mem (hs : List Handle) (cid : Nat)
    (hmem : some cid ∈ hs) : 1 ≤ countRefs hs cid := by
  have : (some cid : Handle) ∈ hs.filter (fun h => decide (h = some cid)) :=
    List.mem_filter.mpr ⟨hmem, by simp⟩
  exact List.length_pos_of_mem this

theorem countRefs_set (cid : Nat) :
    ∀ (hs : List Handle) (i : Nat) (h0 h1 : Handle), hs[i]? = some h0 →
      countRefs (hs.set i h1) cid + (if h0 = some cid then 1 else 0)
        = countRefs hs cid + (if h1 = some cid then 1 else 0)
  | [], i, _, _, hget => by simp at hget
  | a :: tl, 0, h0, h1, hget => by
    have : a = h0 := by simpa using hget
    subst this
    simp only [List.set_cons_zero, countRefs_cons]
    omega
  | a :: tl, i + 1, h0, h1, hget => by
    have htl : tl[i]? = some h0 := by simpa using hget
    have ih := countRefs_set cid tl i h0 h1 htl
    simp only [List.set_cons_succ, countRefs_cons]
    omega

theorem countRefs_eq_zero_of_not_mem (hs : List Handle) (cid : Nat)
    (hmem : some cid ∉ hs) : countRefs hs cid = 0 := by
  unfold countRefs
  rw [List.length_eq_zero, List.filter_eq_nil_iff]
  intro a ha
  simp only [decide_eq_true_eq]
  intro hcontra
  exact hmem (hcontra ▸ ha)

/-! Lemma describing the sequential erase loop of the retention policy. -/

theorem mem_foldl_filter {α β : Type} (q : β → α → Bool) :
    ∀ (vs : List β) (es : List α) (e : α),
      (e ∈ vs.foldl (fun es' p => es'.filter (q p)) es)
        ↔ (e ∈ es ∧ ∀ p ∈ vs, q p e = true) := by
  intro vs
  induction vs with
  | nil => simp
  | cons v tl ih =>
    intro es e
    rw [List.foldl_cons, ih]
    simp only [List.mem_filter, List.mem_cons]
    constructor
    · rintro ⟨⟨he, hv⟩, htl⟩
      exact ⟨he, fun p hp => by rcases hp with rfl | hp; exact hv; exact htl p hp⟩
    · rintro ⟨he, hall⟩
      exact ⟨⟨he, hall v (Or.inl rfl)⟩, fun p hp => hall p (Or.inr hp)⟩

theorem drop_succ_subset {α : Type} (l : List α) (n : Nat) :
    l.drop (n + 1) ⊆ l.drop n := by
  intro x hx
  rw [← List.drop_drop] at hx
  exact List.drop_subset _ _ hx

theorem foldl_filter_eq_filter {α β : Type} (q : β → α → Bool) :
    ∀ (vs : List β) (es : List α),
      vs.foldl (fun es' p => es'.filter (q p)) es
        = es.filter (fun e => decide (∀ p ∈ vs, q p e = true)) := by
  intro vs
  induction vs with
  | nil =>
    intro es
    simp
  | cons v tl ih =>
    intro es
    rw [List.foldl_cons, ih, List.filter_filter]
    apply List.filter_congr
    intro e _
    by_cases hv : q v e = true
    · simp [hv]
    · simp [hv]

/-! Arithmetic facts about the wrapping unsigned counter. -/

theorem uintMod_pos : 0 < uintMod := by
  unfold uintMod
  exact Nat.pos_pow_of_pos 32 (by omega)

theorem mod_inc_eq (r : Nat) (h : r + 1 < uintMod) : (r + 1) % uintMod = r + 1 :=
  Nat.mod_eq_of_lt h

theorem mod_dec_eq (r : Nat) (h1 : 1 ≤ r) (h2 : r < uintMod) :
    (r + (uintMod - 1)) % uintMod = r - 1 := by
  have hM : 0 < uintMod := uintMod_pos
  have hsum : r + (uintMod - 1) = (r - 1) + uintMod := by omega
  rw [hsum, Nat.add_mod_right]
  exact Nat.mod_eq_of_lt (by omega)

/-! Lemmas about association-list lookup and the auxiliary-map update. -/

theorem lookupKey_eq_of_mem {K : Type} [DecidableEq K] :
    ∀ (counts : List (K × Nat)), ((counts.map Prod.fst).Nodup) →
      ∀ (x : K) (cid : Nat), (x, cid) ∈ counts → lookupKey counts x = some cid
  | [], _, _, _, hmem => by cases hmem
  | a :: tl, hnd, x, cid, hmem => by
    rw [List.map_cons, List.nodup_cons] at hnd
    rw [List.mem_cons] at hmem
    rcases hmem with hmem | hmem
    · subst hmem
      unfold lookupKey
      simp
    · have hx : a.1 ≠ x := by
        intro hax
        exact hnd.1 (hax ▸ (List.mem_map.mpr ⟨(x, cid), hmem, rfl⟩))
      have ih := lookupKey_eq_of_mem tl hnd.2 x cid hmem
      unfold lookupKey at ih ⊢
      rw [List.find?_cons_of_neg _ (by simpa using hx)]
      exact ih

theorem lookupKey_append_right {K : Type} [DecidableEq K]
    (l1 l2 : List (K × Nat)) (x : K)
    (hnone : ∀ p ∈ l1, p.1 ≠ x) :
    lookupKey (l1 ++ l2) x = lookupKey l2 x := by
  unfold lookupKey
  rw [List.find?_append, List.find?_eq_none.mpr (fun p hp => by simpa using hnone p hp)]
  rfl

theorem lookupKey_overwrite_ne {K : Type} [DecidableEq K]
    (k : K) (cid : Nat) (x : K) (hx : x ≠ k) :
    ∀ (counts : List (K × Nat)),
      lookupKey (counts.map (fun p => if p.1 = k then (k, cid) else p)) x
        = lookupKey counts x
  | [] => rfl
  | a :: tl => by
    have ih := lookupKey_overwrite_ne k cid x hx tl
    unfold lookupKey at ih ⊢
    rw [List.map_cons]
    by_cases ha : a.1 = k
    · rw [if_pos ha]
      rw [List.find?_cons_of_neg _ (by simpa using fun hc : k = x => hx hc.symm),
        List.find?_cons_of_neg _ (by
          simp only [decide_eq_true_eq]
          intro hc
          exact hx ((ha ▸ hc : (k : K) = x)).symm)]
      exact ih
    · rw [if_neg ha]
      by_cases hax : a.1 = x
      · rw [List.find?_cons_of_pos _ (by simpa using hax),
          List.find?_cons_of_pos _ (by simpa using hax)]
      · rw [List.find?_cons_of_neg _ (by simpa using hax),
          List.find?_cons_of_neg _ (by simpa using hax)]
        exact ih

theorem lookupKey_overwrite_self {K : Type} [DecidableEq K] (k : K) (cid : Nat) :
    ∀ (counts : List (K × Nat)),
      counts.any (fun p => decide (p.1 = k)) = true →
      lookupKey (counts.map (fun p => if p.1 = k then (k, cid) else p)) k
        = some cid
  | [], hany => by cases hany
  | a :: tl, hany => by
    rw [List.map_cons]
    by_cases ha : a.1 = k
    · rw [if_pos ha]
      unfold lookupKey
      simp
    · rw [if_neg ha]
      have htl : tl.any (fun p => decide (p.1 = k)) = true := by
        rw [List.any_cons] at hany
        simpa [ha] using hany
      have ih := lookupKey_overwrite_self k cid tl htl
      unfold lookupKey at ih ⊢
      rw [List.find?_cons_of_neg _ (by simpa using ha)]
      exact ih

theorem nodup_fst_overwrite {K : Type} [DecidableEq K]
    (counts : List (K × Nat)) (k : K) (cid : Nat) :
    (counts.map (fun p => if p.1 = k then (k, cid) else p)).map Prod.fst
      = counts.map Prod.fst := by
  rw [List.map_map]
  apply List.map_congr_left
  intro p _
  by_cases hp : p.1 = k
  · simp [hp]
  · simp [hp]

theorem nodup_snd_overwrite {K : Type} [DecidableEq K] (k : K) (cid : Nat) :
    ∀ (counts : List (K × Nat)),
      (counts.map Prod.fst).Nodup → (counts.map Prod.snd).Nodup →
      (∀ p ∈ counts, p.2 < cid) →
      ((counts.map (fun p => if p.1 = k then (k, cid) else p)).map Prod.snd).Nodup
  | [], _, _, _ => by simp
  | a :: tl, hk, hs, hb => by
    rw [List.map_cons, List.nodup_cons] at hk hs
    rw [List.map_cons, List.map_cons, List.nodup_cons]
    by_cases ha : a.1 = k
    · rw [if_pos ha]
      have htl : tl.map (fun p => if p.1 = k then (k, cid) else p) = tl := by
        conv_rhs => rw [← List.map_id tl]
        apply List.map_congr_left
        intro p hp
        have hne : p.1 ≠ k := by
          intro hc
          exact hk.1 (ha ▸ hc ▸ List.mem_map.mpr ⟨p, hp, rfl⟩)
        simp [hne]
      rw [htl]
      constructor
      · intro hmem
        rcases List.mem_map.mp hmem with ⟨p, hp, hpe⟩
        exact absurd (hpe ▸ hb p (List.mem_cons_of_mem a hp)) (by simp)
      · exact hs.2
    · rw [if_neg ha]
      constructor
      · intro hmem
        rcases List.mem_map.mp hmem with ⟨p', hp'⟩
        rcases List.mem_map.mp hp'.1 with ⟨p, hp, hpp'⟩
        by_cases hpk : p.1 = k
        · rw [if_pos hpk] at hpp'
          have : a.2 = cid := by rw [← hp'.2, ← hpp']
          exact absurd (this ▸ hb a (List.mem_cons_self a tl)) (by simp)
        · rw [if_neg hpk] at hpp'
          exact hs.1 (hp'.2 ▸ hpp' ▸ List.mem_map.mpr ⟨p, hp, rfl⟩)
      · exact nodup_snd_overwrite k cid tl hk.2 hs.2
          (fun p hp => hb p (List.mem_cons_of_mem a hp))

theorem set_same {α : Type} :
    ∀ (l : List α) (i : Nat) (a : α), l[i]? = some a → l.set i a = l
  | [], i, a, h => by cases h
  | b :: tl, 0, a, h => by
    have : b = a := by simpa using h
    rw [List.set_cons_zero, this]
  | b :: tl, i + 1, a, h => by
    rw [List.set_cons_succ, set_same tl i a (by simpa using h)]

theorem one_lt_uintMod : 1 < uintMod := by
  unfold uintMod
  norm_num

theorem one_lt_sizeMod : 1 < sizeMod := by
  unfold sizeMod
  norm_num

theorem mod_add_one (a m : Nat) (hm : 1 < m) : (a % m + 1) % m = (a + 1) % m := by
  conv_rhs => rw [Nat.add_mod]
  rw [Nat.mod_eq_of_lt hm]

theorem not_any_key {K : Type} [DecidableEq K] (counts : List (K × Nat)) (k : K)
    (hany : ¬ (counts.any (fun p => decide (p.1 = k)) = true)) :
    ∀ p ∈ counts, p.1 ≠ k := by
  intro p hp hc
  exact hany (List.any_eq_true.mpr ⟨p, hp, by simpa using hc⟩)

theorem lookupKey_append_left {K : Type} [DecidableEq K]
    (l1 l2 : List (K × Nat)) (x : K) (cid : Nat)
    (hsome : lookupKey l1 x = some cid) :
    lookupKey (l1 ++ l2) x = some cid := by
  unfold lookupKey at hsome ⊢
  rw [List.find?_append]
  cases hf : l1.find? (fun p => decide (p.1 = x)) with
  | none => rw [hf] at hsome; cases hsome
  | some p => rw [hf] at hsome; rw [Option.or_some]; exact hsome

/-! Preservation of the state invariant by each operation. -/

theorem inv_step_emplace {K V : Type} [DecidableEq K] [DecidableEq V] [LinearOrder K]
    (s : TState K V) (k : K) (v : V) (hinv : Inv s)
    (hlen : s.handles.length + 1 < uintMod) : Inv (step s (.emplaceOp k v)) := by
  obtain ⟨⟨hek, hck, hcc, hec⟩, ⟨hent, hcb⟩, ⟨hlive, hcnt⟩, ⟨hnext, hseq⟩⟩ := hinv
  cases hfind : s.cache.entries.find? (fun e => decide (e.key = k)) with
  | some e =>
    have hstep : step s (.emplaceOp k v)
        = ⟨{ s.cache with ctrs := incAt s.cache.ctrs e.cid },
           s.handles ++ [some e.cid]⟩ := by
      simp only [step, emplace, hfind]
    rw [hstep]
    have hmem : e ∈ s.cache.entries := List.mem_of_find?_eq_some hfind
    have hcid : e.cid < s.cache.ctrs.length := (hent e hmem).1
    refine ⟨⟨hek, hck, hcc, hec⟩, ⟨?_, ?_⟩, ⟨?_, ?_⟩, ⟨?_, ?_⟩⟩
    · intro e' he'
      rw [length_incAt]
      exact hent e' he'
    · intro p hp
      rw [length_incAt]
      exact hcb p hp
    · intro h hh cid hcid'
      rw [List.mem_append] at hh
      rcases hh with hh | hh
      · exact hlive h hh cid hcid'
      · have h1 : h = some e.cid := by simpa using hh
        subst h1
        have h2 : e.cid = cid := by simpa using hcid'
        exact ⟨e, hmem, h2⟩
    · intro i hi
      rw [length_incAt] at hi
      rw [useAt_incAt _ _ _ hcid, countRefs_append]
      by_cases hie : i = e.cid
      · subst hie
        rw [if_pos rfl, if_pos rfl, hcnt _ hi]
        exact mod_inc_eq _
          (Nat.lt_of_le_of_lt (Nat.add_le_add_right (countRefs_le_length _ _) 1) hlen)
      · rw [if_neg hie,
          if_neg (fun hc : some e.cid = some i => hie (Option.some.inj hc).symm),
          hcnt i hi, Nat.add_zero]
    · rw [length_incAt]
      exact hnext
    · intro i hi
      rw [length_incAt] at hi
      rw [seqAt_incAt]
      exact hseq i hi
  | none =>
    have hstep : step s (.emplaceOp k v)
        = ⟨{ next := (s.cache.next + 1) % sizeMod
             ctrs := incAt (s.cache.ctrs ++ [⟨s.cache.next % sizeMod, 0⟩])
               s.cache.ctrs.length
             entries := s.cache.entries ++ [⟨k, v, s.cache.ctrs.length⟩]
             counts :=
               if s.cache.counts.any (fun p => decide (p.1 = k)) then
                 s.cache.counts.map
                   (fun p => if p.1 = k then (k, s.cache.ctrs.length) else p)
               else s.cache.counts ++ [(k, s.cache.ctrs.length)] },
           s.handles ++ [some s.cache.ctrs.length]⟩ := by
      simp only [step, emplace, hfind]
    rw [hstep]
    have hfresh : ∀ e ∈ s.cache.entries, ¬ (e.key = k) := fun e he => by
      have hne := List.find?_eq_none.mp hfind e he
      simpa using hne
    have hLsucc : s.cache.ctrs.length < (s.cache.ctrs ++ [(⟨s.cache.next % sizeMod, 0⟩ : EntryCount)]).length := by
      simp
    have hnotref : (some s.cache.ctrs.length : Handle) ∉ s.handles := by
      intro hmem
      rcases hlive _ hmem s.cache.ctrs.length rfl with ⟨e, he, hecid⟩
      exact absurd (hecid ▸ (hent e he).1) (by omega)
    refine ⟨⟨?_, ?_, ?_, ?_⟩, ⟨?_, ?_⟩, ⟨?_, ?_⟩, ⟨?_, ?_⟩⟩
    · rw [List.map_append, List.nodup_append]
      refine ⟨hek, by simp, ?_⟩
      intro x hx hx'
      rcases List.mem_map.mp hx with ⟨e, he, hxe⟩
      have : x = k := by simpa using hx'
      exact hfresh e he (by rw [hxe, this])
    · by_cases hany : s.cache.counts.any (fun p => decide (p.1 = k)) = true
      · rw [if_pos hany, nodup_fst_overwrite]
        exact hck
      · rw [if_neg hany, List.map_append, List.nodup_append]
        refine ⟨hck, by simp, ?_⟩
        intro x hx hx'
        rcases List.mem_map.mp hx with ⟨p, hp, hxp⟩
        have hxk : x = k := by simpa using hx'
        exact not_any_key _ _ hany p hp (hxp.trans hxk)
    · by_cases hany : s.cache.counts.any (fun p => decide (p.1 = k)) = true
      · rw [if_pos hany]
        exact nodup_snd_overwrite k s.cache.ctrs.length s.cache.counts hck hcc hcb
      · rw [if_neg hany, List.map_append, List.nodup_append]
        refine ⟨hcc, by simp, ?_⟩
        intro x hx hx'
        rcases List.mem_map.mp hx with ⟨p, hp, hxp⟩
        have hxL : x = s.cache.ctrs.length := by simpa using hx'
        exact absurd (hxp ▸ hxL ▸ hcb p hp :) (by omega)
    · rw [List.map_append, List.nodup_append]
      refine ⟨hec, by simp, ?_⟩
      intro x hx hx'
      rcases List.mem_map.mp hx with ⟨e, he, hxe⟩
      have hxL : x = s.cache.ctrs.length := by simpa using hx'
      exact absurd (hxe ▸ hxL ▸ (hent e he).1 :) (by omega)
    · intro e' he'
      rw [List.mem_append] at he'
      rw [length_incAt]
      rcases he' with he' | he'
      · refine ⟨by simpa using Nat.lt_succ_of_lt (hent e' he').1, ?_⟩
        by_cases hany : s.cache.counts.any (fun p => decide (p.1 = k)) = true
        · rw [if_pos hany,
            lookupKey_overwrite_ne k s.cache.ctrs.length e'.key
              (fun hc => hfresh e' he' hc) s.cache.counts]
          exact (hent e' he').2
        · rw [if_neg hany]
          exact lookupKey_append_left _ _ _ _ (hent e' he').2
      · have he'' : e' = ⟨k, v, s.cache.ctrs.length⟩ := by simpa using he'
        subst he''
        refine ⟨by simp, ?_⟩
        by_cases hany : s.cache.counts.any (fun p => decide (p.1 = k)) = true
        · rw [if_pos hany]
          exact lookupKey_overwrite_self k s.cache.ctrs.length s.cache.counts hany
        · rw [if_neg hany]
          rw [lookupKey_append_right _ _ _
            (fun p hp => not_any_key _ _ hany p hp)]
          unfold lookupKey
          simp
    · intro p hp
      rw [length_incAt]
      by_cases hany : s.cache.counts.any (fun p => decide (p.1 = k)) = true
      · rw [if_pos hany] at hp
        rcases List.mem_map.mp hp with ⟨p0, hp0, hpp0⟩
        by_cases hp0k : p0.1 = k
        · rw [if_pos hp0k] at hpp0
          rw [← hpp0]
          simp
        · rw [if_neg hp0k] at hpp0
          rw [← hpp0]
          simpa using Nat.lt_succ_of_lt (hcb p0 hp0)
      · rw [if_neg hany] at hp
        rw [List.mem_append] at hp
        rcases hp with hp | hp
        · simpa using Nat.lt_succ_of_lt (hcb p hp)
        · have : p = (k, s.cache.ctrs.length) := by simpa using hp
          rw [this]
          simp
    · intro h hh cid hcid'
      rw [List.mem_append] at hh
      rcases hh with hh | hh
      · rcases hlive h hh cid hcid' with ⟨e, he, hecid⟩
        exact ⟨e, List.mem_append_left _ he, hecid⟩
      · have h1 : h = some s.cache.ctrs.length := by simpa using hh
        subst h1
        have h2 : s.cache.ctrs.length = cid := by simpa using hcid'
        exact ⟨⟨k, v, s.cache.ctrs.length⟩, List.mem_append_right _ (by simp), h2⟩
    · intro i hi
      rw [length_incAt, List.length_append, List.length_singleton] at hi
      rw [useAt_incAt _ _ _ hLsucc, countRefs_append]
      by_cases hiL : i = s.cache.ctrs.length
      · subst hiL
        rw [if_pos rfl, if_pos rfl, useAt_append_last,
          countRefs_eq_zero_of_not_mem _ _ hnotref]
        exact mod_inc_eq 0 (by omega)
      · have hi' : i < s.cache.ctrs.length := by omega
        rw [if_neg hiL,
          if_neg (fun hc : some s.cache.ctrs.length = some i =>
            hiL (Option.some.inj hc).symm),
          useAt_append_left _ _ _ hi', hcnt i hi', Nat.add_zero]
    · rw [length_incAt, List.length_append, List.length_singleton, hnext,
        mod_add_one _ _ one_lt_sizeMod]
    · intro i hi
      rw [length_incAt, List.length_append, List.length_singleton] at hi
      rw [seqAt_incAt]
      by_cases hiL : i = s.cache.ctrs.length
      · subst hiL
        rw [seqAt_append_last, hnext]
        exact Nat.mod_eq_of_lt (Nat.mod_lt _ (by have := one_lt_sizeMod; omega))
      · have hi' : i < s.cache.ctrs.length := by omega
        rw [seqAt_append_left _ _ _ hi']
        exact hseq i hi'

theorem inv_inc_append {K V : Type} [DecidableEq K] [DecidableEq V]
    (s : TState K V) (e : CEntry K V) (hmem : e ∈ s.cache.entries) (hinv : Inv s)
    (hlen : s.handles.length + 1 < uintMod) :
    Inv (⟨{ s.cache with ctrs := incAt s.cache.ctrs e.cid },
      s.handles ++ [some e.cid]⟩ : TState K V) := by
  obtain ⟨⟨hek, hck, hcc, hec⟩, ⟨hent, hcb⟩, ⟨hlive, hcnt⟩, ⟨hnext, hseq⟩⟩ := hinv
  have hcid : e.cid < s.cache.ctrs.length := (hent e hmem).1
  refine ⟨⟨hek, hck, hcc, hec⟩, ⟨?_, ?_⟩, ⟨?_, ?_⟩, ⟨?_, ?_⟩⟩
  · intro e' he'
    rw [length_incAt]
    exact hent e' he'
  · intro p hp
    rw [length_incAt]
    exact hcb p hp
  · intro h hh cid hcid'
    rw [List.mem_append] at hh
    rcases hh with hh | hh
    · exact hlive h hh cid hcid'
    · have h1 : h = some e.cid := by simpa using hh
      subst h1
      have h2 : e.cid = cid := by simpa using hcid'
      exact ⟨e, hmem, h2⟩
  · intro i hi
    rw [length_incAt] at hi
    rw [useAt_incAt _ _ _ hcid, countRefs_append]
    by_cases hie : i = e.cid
    · subst hie
      rw [if_pos rfl, if_pos rfl, hcnt _ hi]
      exact mod_inc_eq _
        (Nat.lt_of_le_of_lt (Nat.add_le_add_right (countRefs_le_length _ _) 1) hlen)
    · rw [if_neg hie,
        if_neg (fun hc : some e.cid = some i => hie (Option.some.inj hc).symm),
        hcnt i hi, Nat.add_zero]
  · rw [length_incAt]
    exact hnext
  · intro i hi
    rw [length_incAt] at hi
    rw [seqAt_incAt]
    exact hseq i hi

theorem inv_append_none {K V : Type} [DecidableEq K] [DecidableEq V]
    (s : TState K V) (hinv : Inv s) :
    Inv (⟨s.cache, s.handles ++ [none]⟩ : TState K V) := by
  obtain ⟨⟨hek, hck, hcc, hec⟩, ⟨hent, hcb⟩, ⟨hlive, hcnt⟩, ⟨hnext, hseq⟩⟩ := hinv
  refine ⟨⟨hek, hck, hcc, hec⟩, ⟨hent, hcb⟩, ⟨?_, ?_⟩, ⟨hnext, hseq⟩⟩
  · intro h hh cid hcid'
    rw [List.mem_append] at hh
    rcases hh with hh | hh
    · exact hlive h hh cid hcid'
    · have h1 : h = none := by simpa using hh
      subst h1
      cases hcid'
  · intro i hi
    rw [countRefs_append, if_neg (fun hc : (none : Handle) = some i => by cases hc),
      Nat.add_zero]
    exact hcnt i hi

theorem inv_release {K V : Type} [DecidableEq K] [DecidableEq V]
    (s : TState K V) (i cid : Nat) (hget : s.handles[i]? = some (some cid))
    (hinv : Inv s) (hlen : s.handles.length + 1 < uintMod) :
    Inv (⟨{ s.cache with ctrs := decAt s.cache.ctrs cid },
      s.handles.set i none⟩ : TState K V) := by
  obtain ⟨⟨hek, hck, hcc, hec⟩, ⟨hent, hcb⟩, ⟨hlive, hcnt⟩, ⟨hnext, hseq⟩⟩ := hinv
  have hmemh : (some cid : Handle) ∈ s.handles := List.getElem?_mem hget
  obtain ⟨e, hmem, hecid⟩ := hlive _ hmemh cid rfl
  have hcid : cid < s.cache.ctrs.length := hecid ▸ (hent e hmem).1
  have hrefs1 : 1 ≤ countRefs s.handles cid := countRefs_pos_of_mem _ _ hmemh
  have hset := countRefs_set cid s.handles i (some cid) none hget
  refine ⟨⟨hek, hck, hcc, hec⟩, ⟨?_, ?_⟩, ⟨?_, ?_⟩, ⟨?_, ?_⟩⟩
  · intro e' he'
    rw [length_decAt]
    exact hent e' he'
  · intro p hp
    rw [length_decAt]
    exact hcb p hp
  · intro h hh cid' hcid'
    rcases List.mem_or_eq_of_mem_set hh with hh' | hh'
    · exact hlive h hh' cid' hcid'
    · subst hh'
      cases hcid'
  · intro i' hi'
    rw [length_decAt] at hi'
    rw [useAt_decAt _ _ _ hcid]
    by_cases hic : i' = cid
    · subst hic
      rw [if_pos rfl, hcnt _ hi']
      have hle : countRefs s.handles i' ≤ s.handles.length := countRefs_le_length _ _
      rw [mod_dec_eq _ hrefs1 (by omega)]
      have hset' := countRefs_set i' s.handles i (some i') none hget
      rw [if_pos rfl,
        if_neg (fun hc : (none : Handle) = some i' => by cases hc)] at hset'
      dsimp only
      omega
    · rw [if_neg hic, hcnt i' hi']
      have hset' := countRefs_set i' s.handles i (some cid) none hget
      rw [if_neg (fun hc : some cid = some i' => hic (Option.some.inj hc).symm),
        if_neg (fun hc : (none : Handle) = some i' => by cases hc)] at hset'
      dsimp only
      omega
  · rw [length_decAt]
    exact hnext
  · intro i' hi'
    rw [length_decAt] at hi'
    rw [seqAt_decAt]
    exact hseq i' hi'

theorem inv_step_get {K V : Type} [DecidableEq K] [DecidableEq V] [LinearOrder K]
    (s : TState K V) (k : K) (hinv : Inv s)
    (hlen : s.handles.length + 1 < uintMod) : Inv (step s (.getOp k)) := by
  cases hfind : s.cache.entries.find? (fun e => decide (e.key = k)) with
  | some e =>
    have hstep : step s (.getOp k)
        = ⟨{ s.cache with ctrs := incAt s.cache.ctrs e.cid },
           s.handles ++ [some e.cid]⟩ := by
      simp only [step, atKey, hfind]
    rw [hstep]
    exact inv_inc_append s e (List.mem_of_find?_eq_some hfind) hinv hlen
  | none =>
    have hstep : step s (.getOp k) = ⟨s.cache, s.handles ++ [none]⟩ := by
      simp only [step, atKey, hfind]
    rw [hstep]
    exact inv_append_none s hinv

theorem inv_step_copy {K V : Type} [DecidableEq K] [DecidableEq V] [LinearOrder K]
    (s : TState K V) (i : Nat) (hinv : Inv s)
    (hlen : s.handles.length + 1 < uintMod) : Inv (step s (.copyOp i)) := by
  cases hget : s.handles[i]? with
  | none =>
    have hstep : step s (.copyOp i) = s := by
      simp only [step, hget]
    rw [hstep]
    exact hinv
  | some h =>
    cases h with
    | none =>
      have hstep : step s (.copyOp i) = ⟨s.cache, s.handles ++ [none]⟩ := by
        simp only [step, hget, copyHandle]
      rw [hstep]
      exact inv_append_none s hinv
    | some cid =>
      obtain ⟨e, hmem, hecid⟩ :=
        hinv.2.2.1.1 _ (List.getElem?_mem hget) cid rfl
      have hstep : step s (.copyOp i)
          = ⟨{ s.cache with ctrs := incAt s.cache.ctrs cid },
             s.handles ++ [some cid]⟩ := by
        simp only [step, hget, copyHandle]
      rw [hstep, ← hecid]
      exact inv_inc_append s e hmem hinv hlen

theorem inv_step_invalidate {K V : Type} [DecidableEq K] [DecidableEq V] [LinearOrder K]
    (s : TState K V) (i : Nat) (hinv : Inv s)
    (hlen : s.handles.length + 1 < uintMod) : Inv (step s (.invalidateOp i)) := by
  cases hget : s.handles[i]? with
  | none =>
    have hstep : step s (.invalidateOp i) = s := by
      simp only [step, hget]
    rw [hstep]
    exact hinv
  | some h =>
    cases h with
    | none =>
      have hstep : step s (.invalidateOp i) = s := by
        simp only [step, hget, invalidateHandle]
        rw [set_same s.handles i none hget]
      rw [hstep]
      exact hinv
    | some cid =>
      have hstep : step s (.invalidateOp i)
          = ⟨{ s.cache with ctrs := decAt s.cache.ctrs cid },
             s.handles.set i none⟩ := by
        simp only [step, hget, invalidateHandle]
      rw [hstep]
      exact inv_release s i cid hget hinv hlen

theorem inv_assign_none_some {K V : Type} [DecidableEq K] [DecidableEq V]
    (s : TState K V) (i cg : Nat) (hgi : s.handles[i]? = some none)
    (hmemg : (some cg : Handle) ∈ s.handles)
    (hinv : Inv s) (hlen : s.handles.length + 1 < uintMod) :
    Inv (⟨{ s.cache with ctrs := incAt s.cache.ctrs cg },
      s.handles.set i (some cg)⟩ : TState K V) := by
  obtain ⟨⟨hek, hck, hcc, hec⟩, ⟨hent, hcb⟩, ⟨hlive, hcnt⟩, ⟨hnext, hseq⟩⟩ := hinv
  obtain ⟨e, hmem, hecid⟩ := hlive _ hmemg cg rfl
  have hcg : cg < s.cache.ctrs.length := hecid ▸ (hent e hmem).1
  refine ⟨⟨hek, hck, hcc, hec⟩, ⟨?_, ?_⟩, ⟨?_, ?_⟩, ⟨?_, ?_⟩⟩
  · intro e' he'
    rw [length_incAt]
    exact hent e' he'
  · intro p hp
    rw [length_incAt]
    exact hcb p hp
  · intro h hh cid' hcid'
    rcases List.mem_or_eq_of_mem_set hh with hh' | hh'
    · exact hlive h hh' cid' hcid'
    · subst hh'
      have : cg = cid' := by simpa using hcid'
      exact ⟨e, hmem, hecid.trans this⟩
  · intro i' hi'
    rw [length_incAt] at hi'
    rw [useAt_incAt _ _ _ hcg]
    have hset' := countRefs_set i' s.handles i none (some cg) hgi
    rw [if_neg (fun hc : (none : Handle) = some i' => by cases hc)] at hset'
    by_cases hic : i' = cg
    · subst hic
      rw [if_pos rfl, hcnt _ hi']
      rw [if_pos rfl] at hset'
      have hle : countRefs s.handles i' ≤ s.handles.length := countRefs_le_length _ _
      rw [mod_inc_eq _ (by omega)]
      dsimp only
      omega
    · rw [if_neg hic, hcnt i' hi']
      rw [if_neg (fun hc : some cg = some i' => hic (Option.some.inj hc).symm)] at hset'
      dsimp only
      omega
  · rw [length_incAt]
    exact hnext
  · intro i' hi'
    rw [length_incAt] at hi'
    rw [seqAt_incAt]
    exact hseq i' hi'

theorem inv_assign_some_some {K V : Type} [DecidableEq K] [DecidableEq V]
    (s : TState K V) (i ch cg : Nat) (hgi : s.handles[i]? = some (some ch))
    (hmemg : (some cg : Handle) ∈ s.handles) (hne : ch ≠ cg)
    (hinv : Inv s) (hlen : s.handles.length + 1 < uintMod) :
    Inv (⟨{ s.cache with ctrs := incAt (decAt s.cache.ctrs ch) cg },
      s.handles.set i (some cg)⟩ : TState K V) := by
  obtain ⟨⟨hek, hck, hcc, hec⟩, ⟨hent, hcb⟩, ⟨hlive, hcnt⟩, ⟨hnext, hseq⟩⟩ := hinv
  have hmemh : (some ch : Handle) ∈ s.handles := List.getElem?_mem hgi
  obtain ⟨eh, hmemeh, heh⟩ := hlive _ hmemh ch rfl
  obtain ⟨eg, hmemeg, heg⟩ := hlive _ hmemg cg rfl
  have hch : ch < s.cache.ctrs.length := heh ▸ (hent eh hmemeh).1
  have hcg : cg < s.cache.ctrs.length := heg ▸ (hent eg hmemeg).1
  have hrefs1 : 1 ≤ countRefs s.handles ch := countRefs_pos_of_mem _ _ hmemh
  refine ⟨⟨hek, hck, hcc, hec⟩, ⟨?_, ?_⟩, ⟨?_, ?_⟩, ⟨?_, ?_⟩⟩
  · intro e' he'
    rw [length_incAt, length_decAt]
    exact hent e' he'
  · intro p hp
    rw [length_incAt, length_decAt]
    exact hcb p hp
  · intro h hh cid' hcid'
    rcases List.mem_or_eq_of_mem_set hh with hh' | hh'
    · exact hlive h hh' cid' hcid'
    · subst hh'
      have : cg = cid' := by simpa using hcid'
      exact ⟨eg, hmemeg, heg.trans this⟩
  · intro i' hi'
    rw [length_incAt, length_decAt] at hi'
    rw [useAt_incAt _ _ _ (by rw [length_decAt]; exact hcg)]
    have hset' := countRefs_set i' s.handles i (some ch) (some cg) hgi
    have hle : countRefs s.handles i' ≤ s.handles.length := countRefs_le_length _ _
    by_cases hicg : i' = cg
    · subst hicg
      rw [if_pos rfl, useAt_decAt _ _ _ hch,
        if_neg (fun hc : i' = ch => hne hc.symm), hcnt _ hi']
      rw [if_pos rfl,
        if_neg (fun hc : some ch = some i' => hne (Option.some.inj hc))] at hset'
      rw [mod_inc_eq _ (by omega)]
      dsimp only
      omega
    · rw [if_neg hicg, useAt_decAt _ _ _ hch]
      by_cases hich : i' = ch
      · subst hich
        rw [if_pos rfl, hcnt _ hi']
        rw [if_pos rfl,
          if_neg (fun hc : some cg = some i' => hicg (Option.some.inj hc).symm)] at hset'
        have hr1 : 1 ≤ countRefs s.handles i' := by
          rw [← hcnt _ hi']
          rw [hcnt _ hi']
          exact hrefs1
        rw [mod_dec_eq _ hr1 (by omega)]
        dsimp only
        omega
      · rw [if_neg hich, hcnt i' hi']
        rw [if_neg (fun hc : some ch = some i' => hich (Option.some.inj hc).symm),
          if_neg (fun hc : some cg = some i' => hicg (Option.some.inj hc).symm)] at hset'
        dsimp only
        omega
  · rw [length_incAt, length_decAt]
    exact hnext
  · intro i' hi'
    rw [length_incAt, length_decAt] at hi'
    rw [seqAt_incAt, seqAt_decAt]
    exact hseq i' hi'

theorem inv_step_assign {K V : Type} [DecidableEq K] [DecidableEq V] [LinearOrder K]
    (s : TState K V) (i j : Nat) (hinv : Inv s)
    (hlen : s.handles.length + 1 < uintMod) : Inv (step s (.assignOp i j)) := by
  cases hgi : s.handles[i]? with
  | none =>
    have hstep : step s (.assignOp i j) = s := by
      simp only [step, hgi]
    rw [hstep]
    exact hinv
  | some h =>
    cases hgj : s.handles[j]? with
    | none =>
      have hstep : step s (.assignOp i j) = s := by
        simp only [step, hgi, hgj]
      rw [hstep]
      exact hinv
    | some g =>
      by_cases heq : h = g
      · subst heq
        have hstep : step s (.assignOp i j) = s := by
          simp only [step, hgi, hgj, assignHandle, eq_self_iff_true, if_true]
          rw [set_same s.handles i h hgi]
        rw [hstep]
        exact hinv
      · match h, g, heq with
        | none, none, heq => exact absurd rfl heq
        | none, some cg, heq =>
          have hstep : step s (.assignOp i j)
              = ⟨{ s.cache with ctrs := incAt s.cache.ctrs cg },
                 s.handles.set i (some cg)⟩ := by
            simp only [step, hgi, hgj, assignHandle, if_neg heq, invalidateHandle]
          rw [hstep]
          exact inv_assign_none_some s i cg hgi (List.getElem?_mem hgj) hinv hlen
        | some ch, none, heq =>
          have hstep : step s (.assignOp i j)
              = ⟨{ s.cache with ctrs := decAt s.cache.ctrs ch },
                 s.handles.set i none⟩ := by
            simp only [step, hgi, hgj, assignHandle, if_neg heq, invalidateHandle]
          rw [hstep]
          exact inv_release s i ch hgi hinv hlen
        | some ch, some cg, heq =>
          have hchg : ch ≠ cg := fun hc => heq (by rw [hc])
          have hstep : step s (.assignOp i j)
              = ⟨{ s.cache with ctrs := incAt (decAt s.cache.ctrs ch) cg },
                 s.handles.set i (some cg)⟩ := by
            simp only [step, hgi, hgj, assignHandle, if_neg heq, invalidateHandle]
          rw [hstep]
          exact inv_assign_some_some s i ch cg hgi (List.getElem?_mem hgj) hchg hinv hlen

theorem inv_step_drop {K V : Type} [DecidableEq K] [DecidableEq V] [LinearOrder K]
    (s : TState K V) (n : Nat) (hinv : Inv s) : Inv (step s (.dropOp n)) := by
  obtain ⟨⟨hek, hck, hcc, hec⟩, ⟨hent, hcb⟩, ⟨hlive, hcnt⟩, ⟨hnext, hseq⟩⟩ := hinv
  have hstep : step s (.dropOp n) = ⟨dropUnusedButLast s.cache n, s.handles⟩ := by
    simp only [step]
  rw [hstep]
  by_cases hle : (sortDescBySeq (unusedEntries s.cache)).length ≤ n
  · have hdrop : dropUnusedButLast s.cache n = s.cache := by
      unfold dropUnusedButLast
      rw [if_pos hle]
    rw [hdrop]
    exact ⟨⟨hek, hck, hcc, hec⟩, ⟨hent, hcb⟩, ⟨hlive, hcnt⟩, ⟨hnext, hseq⟩⟩
  · have hentries : (dropUnusedButLast s.cache n).entries
        = s.cache.entries.filter (fun e =>
            decide (∀ p ∈ (sortDescBySeq (unusedEntries s.cache)).drop n,
              decide (e.key ≠ p.2) = true)) := by
      unfold dropUnusedButLast
      rw [if_neg hle]
      exact foldl_filter_eq_filter _ _ _
    have hctrs : (dropUnusedButLast s.cache n).ctrs = s.cache.ctrs := by
      unfold dropUnusedButLast
      rw [if_neg hle]
    have hcounts : (dropUnusedButLast s.cache n).counts = s.cache.counts := by
      unfold dropUnusedButLast
      rw [if_neg hle]
    have hnext' : (dropUnusedButLast s.cache n).next = s.cache.next := by
      unfold dropUnusedButLast
      rw [if_neg hle]
    -- every entry still referenced by a handle survives the retention filter
    have hsurvive : ∀ e ∈ s.cache.entries, (some e.cid : Handle) ∈ s.handles →
        (∀ p ∈ (sortDescBySeq (unusedEntries s.cache)).drop n,
          decide (e.key ≠ p.2) = true) := by
      intro e he hememh p hp
      apply decide_eq_true
      intro hkey
      have hpu : p ∈ unusedEntries s.cache :=
        (List.perm_insertionSort pairGE _).subset (List.drop_subset _ _ hp)
      rcases List.mem_filterMap.mp hpu with ⟨row, hrow, hrowp⟩
      cases hec' : s.cache.ctrs[row.2]? with
      | none => rw [hec'] at hrowp; cases hrowp
      | some ec =>
        rw [hec'] at hrowp
        dsimp only at hrowp
        by_cases hzero : ec.use_count = 0
        · rw [if_pos hzero] at hrowp
          have hrowkey : row.1 = e.key := by
            have : (ec.sequence_number, row.1) = p := by simpa using hrowp
            rw [← this] at hkey
            exact hkey.symm
          have hlook : lookupKey s.cache.counts row.1 = some row.2 :=
            lookupKey_eq_of_mem s.cache.counts hck row.1 row.2 (by
              have : row = (row.1, row.2) := rfl
              rw [← this]
              exact hrow)
          have hlook2 : lookupKey s.cache.counts e.key = some e.cid := (hent e he).2
          have hcideq : row.2 = e.cid := by
            rw [hrowkey] at hlook
            rw [hlook] at hlook2
            exact Option.some.inj hlook2
          have huse : useAt s.cache.ctrs e.cid = ec.use_count := by
            unfold useAt
            rw [← hcideq, hec']
          have hpos : 1 ≤ countRefs s.handles e.cid :=
            countRefs_pos_of_mem _ _ hememh
          rw [hcnt e.cid (hent e he).1] at huse
          omega
        · rw [if_neg hzero] at hrowp
          cases hrowp
  -- assemble the invariant for the dropped state
    refine ⟨⟨?_, ?_, ?_, ?_⟩, ⟨?_, ?_⟩, ⟨?_, ?_⟩, ⟨?_, ?_⟩⟩
    · rw [hentries]
      exact hek.sublist ((List.filter_sublist _).map _)
    · rw [hcounts]
      exact hck
    · rw [hcounts]
      exact hcc
    · rw [hentries]
      exact hec.sublist ((List.filter_sublist _).map _)
    · intro e' he'
      rw [hentries] at he'
      rw [hctrs, hcounts]
      exact hent e' (List.mem_of_mem_filter he')
    · intro p hp
      rw [hcounts] at hp
      rw [hctrs]
      exact hcb p hp
    · intro h hh cid hcid
      rcases hlive h hh cid hcid with ⟨e, he, hecid⟩
      have hh' : h = some cid := hcid
      refine ⟨e, ?_, hecid⟩
      rw [hentries]
      refine List.mem_filter.mpr ⟨he, ?_⟩
      apply decide_eq_true
      apply hsurvive e he
      rw [hecid, ← hh']
      exact hh
    · intro i hi
      rw [hctrs] at hi ⊢
      exact hcnt i hi
    · rw [hctrs, hnext']
      exact hnext
    · intro i hi
      rw [hctrs] at hi ⊢
      exact hseq i hi

theorem inv_step {K V : Type} [DecidableEq K] [DecidableEq V] [LinearOrder K]
    (s : TState K V) (op : Op K V) (hinv : Inv s)
    (hlen : s.handles.length + 1 < uintMod) : Inv (step s op) := by
  cases op with
  | emplaceOp k v => exact inv_step_emplace s k v hinv hlen
  | getOp k => exact inv_step_get s k hinv hlen
  | copyOp i => exact inv_step_copy s i hinv hlen
  | assignOp i j => exact inv_step_assign s i j hinv hlen
  | invalidateOp i => exact inv_step_invalidate s i hinv hlen
  | dropOp n => exact inv_step_drop s n hinv

theorem handles_length_step {K V : Type} [DecidableEq K] [DecidableEq V] [LinearOrder K]
    (s : TState K V) (op : Op K V) :
    (step s op).handles.length ≤ s.handles.length + 1 := by
  cases op with
  | emplaceOp k v => simp [step]
  | getOp k => simp [step]
  | copyOp i =>
    cases hget : s.handles[i]? with
    | none => simp [step, hget]
    | some h => simp [step, hget]
  | assignOp i j =>
    cases hgi : s.handles[i]? with
    | none => simp [step, hgi]
    | some h =>
      cases hgj : s.handles[j]? with
      | none => simp [step, hgi, hgj]
      | some g => simp [step, hgi, hgj]
  | invalidateOp i =>
    cases hget : s.handles[i]? with
    | none => simp [step, hget]
    | some h => simp [step, hget]
  | dropOp n => simp [step]

theorem ctrs_length_step {K V : Type} [DecidableEq K] [DecidableEq V] [LinearOrder K]
    (s : TState K V) (op : Op K V) :
    (step s op).cache.ctrs.length ≤ s.cache.ctrs.length + 1 := by
  cases op with
  | emplaceOp k v =>
    cases hfind : s.cache.entries.find? (fun e => decide (e.key = k)) with
    | some e => simp [step, emplace, hfind, length_incAt]
    | none => simp [step, emplace, hfind, length_incAt]
  | getOp k =>
    cases hfind : s.cache.entries.find? (fun e => decide (e.key = k)) with
    | some e => simp [step, atKey, hfind, length_incAt]
    | none => simp [step, atKey, hfind]
  | copyOp i =>
    cases hget : s.handles[i]? with
    | none => simp [step, hget]
    | some h =>
      cases h with
      | none => simp [step, hget, copyHandle]
      | some cid => simp [step, hget, copyHandle, length_incAt]
  | assignOp i j =>
    cases hgi : s.handles[i]? with
    | none => simp [step, hgi]
    | some h =>
      cases hgj : s.handles[j]? with
      | none => simp [step, hgi, hgj]
      | some g =>
        by_cases heq : h = g
        · subst heq
          simp [step, hgi, hgj, assignHandle]
        · match h, g, heq with
          | none, none, heq => exact absurd rfl heq
          | none, some cg, heq =>
            simp [step, hgi, hgj, assignHandle, if_neg heq, invalidateHandle, length_incAt]
          | some ch, none, heq =>
            simp [step, hgi, hgj, assignHandle, if_neg heq, invalidateHandle, length_decAt]
          | some ch, some cg, heq =>
            have hchg : ch ≠ cg := fun hc => heq (by rw [hc])
            simp [step, hgi, hgj, assignHandle, if_neg heq, invalidateHandle,
              length_incAt, length_decAt, hchg]
  | invalidateOp i =>
    cases hget : s.handles[i]? with
    | none => simp [step, hget]
    | some h =>
      cases h with
      | none => simp [step, hget, invalidateHandle]
      | some cid => simp [step, hget, invalidateHandle, length_decAt]
  | dropOp n =>
    have : (dropUnusedButLast s.cache n).ctrs = s.cache.ctrs := by
      unfold dropUnusedButLast
      by_cases hle : (sortDescBySeq (unusedEntries s.cache)).length ≤ n
      · rw [if_pos hle]
      · rw [if_neg hle]
    simp [step, this]

theorem inv_init {K V : Type} [DecidableEq K] [DecidableEq V] :
    Inv (⟨Cache.init K V, []⟩ : TState K V) := by
  unfold Inv Cache.init
  refine ⟨⟨?_, ?_, ?_, ?_⟩, ⟨?_, ?_⟩, ⟨?_, ?_⟩, ⟨?_, ?_⟩⟩ <;> simp

theorem inv_run_aux {K V : Type} [DecidableEq K] [DecidableEq V] [LinearOrder K] :
    ∀ (ops : List (Op K V)) (s : TState K V), Inv s →
      s.handles.length + ops.length < uintMod →
      Inv (ops.foldl step s)
        ∧ (ops.foldl step s).handles.length ≤ s.handles.length + ops.length
  | [], s, hinv, _ => ⟨hinv, by simp⟩
  | op :: tl, s, hinv, hb => by
    rw [List.foldl_cons]
    have hb1 : s.handles.length + 1 < uintMod := by
      rw [List.length_cons] at hb
      omega
    have h1 : Inv (step s op) := inv_step s op hinv hb1
    have h2 : (step s op).handles.length ≤ s.handles.length + 1 :=
      handles_length_step s op
    have hb' : (step s op).handles.length + tl.length < uintMod := by
      rw [List.length_cons] at hb
      omega
    have ih := inv_run_aux tl (step s op) h1 hb'
    refine ⟨ih.1, ?_⟩
    rw [List.length_cons]
    have := ih.2
    omega

theorem inv_run {K V : Type} [DecidableEq K] [DecidableEq V] [LinearOrder K]
    (ops : List (Op K V)) (hops : ops.length < uintMod) : Inv (run ops) := by
  unfold run
  exact (inv_run_aux ops ⟨Cache.init K V, []⟩ inv_init (by simpa using hops)).1

theorem ctrs_length_run_aux {K V : Type} [DecidableEq K] [DecidableEq V] [LinearOrder K] :
    ∀ (ops : List (Op K V)) (s : TState K V),
      (ops.foldl step s).cache.ctrs.length ≤ s.cache.ctrs.length + ops.length
  | [], s => by simp
  | op :: tl, s => by
    rw [List.foldl_cons, List.length_cons]
    have h1 := ctrs_length_step s op
    have ih := ctrs_length_run_aux tl (step s op)
    omega

theorem ctrs_length_run {K V : Type} [DecidableEq K] [DecidableEq V] [LinearOrder K]
    (ops : List (Op K V)) : (run ops).cache.ctrs.length ≤ ops.length := by
  unfold run
  have := ctrs_length_run_aux ops (⟨Cache.init K V, []⟩ : TState K V)
  simpa [Cache.init] using this

theorem dropUnusedButLast_entries_subset {K V : Type} [DecidableEq K] [LinearOrder K]
    (c : Cache K V) (n : Nat) :
    (dropUnusedButLast c n).entries ⊆ c.entries := by
  intro e he
  unfold dropUnusedButLast at he
  by_cases hle : (sortDescBySeq (unusedEntries c)).length ≤ n
  · rw [if_pos hle] at he
    exact he
  · rw [if_neg hle] at he
    exact ((mem_foldl_filter
      (fun (p : Nat × K) (e' : CEntry K V) => decide (e'.key ≠ p.2)) _ _ _).mp he).1

/-! Lemmas supporting the compaction analysis. -/

theorem dropUnusedButLast_counts_eq {K V : Type} [DecidableEq K] [LinearOrder K]
    (c : Cache K V) (n : Nat) : (dropUnusedButLast c n).counts = c.counts := by
  unfold dropUnusedButLast
  by_cases hle : (sortDescBySeq (unusedEntries c)).length ≤ n
  · rw [if_pos hle]
  · rw [if_neg hle]

theorem dropUnusedButLast_ctrs_eq {K V : Type} [DecidableEq K] [LinearOrder K]
    (c : Cache K V) (n : Nat) : (dropUnusedButLast c n).ctrs = c.ctrs := by
  unfold dropUnusedButLast
  by_cases hle : (sortDescBySeq (unusedEntries c)).length ≤ n
  · rw [if_pos hle]
  · rw [if_neg hle]

theorem dropUnused_entries_char {K V : Type} [DecidableEq K] [LinearOrder K]
    (c : Cache K V) :
    (dropUnusedButLast c 0).entries
      = c.entries.filter (fun e =>
          decide (∀ p ∈ sortDescBySeq (unusedEntries c), decide (e.key ≠ p.2) = true)) := by
  unfold dropUnusedButLast
  by_cases hle : (sortDescBySeq (unusedEntries c)).length ≤ 0
  · rw [if_pos hle]
    have hnil : sortDescBySeq (unusedEntries c) = [] :=
      List.length_eq_zero.mp (by omega)
    rw [hnil]
    symm
    apply List.filter_eq_self.mpr
    intro e _
    apply decide_eq_true
    intro p hp
    cases hp
  · rw [if_neg hle, List.drop_zero]
    exact foldl_filter_eq_filter _ _ _

theorem eraseP_key_eq_filter {K : Type} [DecidableEq K] :
    ∀ (counts : List (K × Nat)), (counts.map Prod.fst).Nodup → ∀ (k : K),
      counts.eraseP (fun p => decide (p.1 = k))
        = counts.filter (fun p => decide (p.1 ≠ k))
  | [], _, k => rfl
  | a :: tl, hnd, k => by
    rw [List.map_cons, List.nodup_cons] at hnd
    by_cases ha : a.1 = k
    · rw [List.eraseP_cons_of_pos (by simpa using ha),
        List.filter_cons_of_neg (by simpa using ha)]
      symm
      apply List.filter_eq_self.mpr
      intro p hp
      apply decide_eq_true
      intro hc
      exact hnd.1 (ha ▸ hc ▸ List.mem_map.mpr ⟨p, hp, rfl⟩)
    · rw [List.eraseP_cons_of_neg (by simpa using ha),
        List.filter_cons_of_pos (by simpa using ha),
        eraseP_key_eq_filter tl hnd.2 k]

theorem foldl_eraseP_eq_filter {K : Type} [DecidableEq K] :
    ∀ (ks : List K) (counts : List (K × Nat)), (counts.map Prod.fst).Nodup →
      ks.foldl (fun l k => l.eraseP (fun p => decide (p.1 = k))) counts
        = counts.filter (fun p => decide (p.1 ∉ ks))
  | [], counts, _ => by simp
  | k :: tl, counts, hnd => by
    rw [List.foldl_cons, eraseP_key_eq_filter counts hnd k,
      foldl_eraseP_eq_filter tl _ (hnd.sublist ((List.filter_sublist _).map _)),
      List.filter_filter]
    apply List.filter_congr
    intro p _
    by_cases h1 : p.1 = k
    · simp [h1]
    · by_cases h2 : p.1 ∈ tl
      · simp [h1, h2]
      · simp [h1, h2]

theorem lookupKey_some_mem {K : Type} [DecidableEq K]
    (counts : List (K × Nat)) (x : K) (cid : Nat)
    (h : lookupKey counts x = some cid) : (x, cid) ∈ counts := by
  unfold lookupKey at h
  cases hf : counts.find? (fun p => decide (p.1 = x)) with
  | none => rw [hf] at h; cases h
  | some r =>
    rw [hf] at h
    have hr1 : r.1 = x := by simpa using List.find?_some hf
    have hr2 : r.2 = cid := by simpa using h
    have : r = (x, cid) := Prod.ext hr1 hr2
    rw [← this]
    exact List.mem_of_find?_eq_some hf

theorem mem_of_countRefs_pos (hs : List Handle) (cid : Nat)
    (h : 0 < countRefs hs cid) : (some cid : Handle) ∈ hs := by
  unfold countRefs at h
  rcases List.exists_mem_of_length_pos h with ⟨x, hx⟩
  have := List.mem_filter.mp hx
  have hx' : x = some cid := by simpa using this.2
  exact hx' ▸ this.1

theorem nodup_mem_length_eq {β : Type} [DecidableEq β]
    (l1 l2 : List β) (h1 : l1.Nodup) (h2 : l2.Nodup)
    (hm : ∀ x, x ∈ l1 ↔ x ∈ l2) : l1.length = l2.length := by
  rw [← List.toFinset_card_of_nodup h1, ← List.toFinset_card_of_nodup h2]
  congr 1
  apply Finset.ext
  intro x
  simpa using hm x

/-! Claim theorems. -/

/-- Claim C8: for every cache state and every `n`, the entries of the primary
map remaining after `drop_unused_but_last(n+1)` are a superset of the entries
remaining after `drop_unused_but_last(n)` applied to the same starting
state. -/
theorem claim8_retention_monotone {K V : Type} [DecidableEq K] [LinearOrder K]
    (c : Cache K V) (n : Nat) (e : CEntry K V)
    (he : e ∈ (dropUnusedButLast c n).entries) :
    e ∈ (dropUnusedButLast c (n + 1)).entries := by
  unfold dropUnusedButLast at he ⊢
  by_cases h1 : (sortDescBySeq (unusedEntries c)).length ≤ n
  · rw [if_pos h1] at he
    rw [if_pos (Nat.le_succ_of_le h1)]
    exact he
  · rw [if_neg h1] at he
    have hmem := (mem_foldl_filter
      (fun (p : Nat × K) (e' : CEntry K V) => decide (e'.key ≠ p.2)) _ _ _).mp he
    by_cases h2 : (sortDescBySeq (unusedEntries c)).length ≤ n + 1
    · rw [if_pos h2]
      exact hmem.1
    · rw [if_neg h2]
      exact (mem_foldl_filter
        (fun (p : Nat × K) (e' : CEntry K V) => decide (e'.key ≠ p.2)) _ _ _).mpr
        ⟨hmem.1, fun p hp => hmem.2 p (drop_succ_subset _ n hp)⟩

/-- Witness for C8 at a concrete one-entry cache whose entry is still
referenced by the handle `emplace` returned. -/
theorem claim8_retention_monotone_witness :
    (⟨0, 5, 0⟩ : CEntry Nat Nat) ∈ (dropUnusedButLast (run [Op.emplaceOp 0 5]).cache 0).entries
    ∧ (⟨0, 5, 0⟩ : CEntry Nat Nat) ∈ (dropUnusedButLast (run [Op.emplaceOp 0 5]).cache 1).entries :=
  ⟨by decide, claim8_retention_monotone (run [Op.emplaceOp 0 5]).cache 0 ⟨0, 5, 0⟩ (by decide)⟩

/-- Claim C4: assignment between handles referencing the same entry (or both
referencing none) returns immediately and leaves every use count — indeed the
whole counter heap — unchanged; assignment between handles with different
targets decrements the outgoing entry's count, adopts the incoming reference
and increments the incoming entry's count, leaving all other counts alone. -/
theorem claim4_assign_counts (ctrs : List EntryCount) (h g : Handle)
    (hh : ∀ cid ∈ h, cid < ctrs.length) (hg : ∀ cid ∈ g, cid < ctrs.length) :
    (h = g → assignHandle ctrs h g = (ctrs, h))
    ∧ (h ≠ g → (assignHandle ctrs h g).2 = g
        ∧ ∀ j : Nat,
            useAt (assignHandle ctrs h g).1 j
              = if h = some j then (useAt ctrs j + (uintMod - 1)) % uintMod
                else if g = some j then (useAt ctrs j + 1) % uintMod
                else useAt ctrs j) := by
  constructor
  · intro heq
    unfold assignHandle
    rw [if_pos heq]
  · intro hne
    unfold assignHandle
    rw [if_neg hne]
    match h, g with
    | none, none => exact absurd rfl hne
    | none, some cg =>
      have hcg : cg < ctrs.length := hg cg rfl
      refine ⟨rfl, fun j => ?_⟩
      simp only [invalidateHandle]
      rw [useAt_incAt ctrs cg j hcg]
      by_cases hj : j = cg
      · subst hj
        simp
      · have hcgj : ¬ cg = j := fun hc => hj hc.symm
        simp [hj, hcgj]
    | some ch, none =>
      have hch : ch < ctrs.length := hh ch rfl
      refine ⟨rfl, fun j => ?_⟩
      simp only [invalidateHandle]
      rw [useAt_decAt ctrs ch j hch]
      by_cases hj : j = ch
      · subst hj
        simp
      · have hchj : ¬ ch = j := fun hc => hj hc.symm
        simp [hj, hchj]
    | some ch, some cg =>
      have hch : ch < ctrs.length := hh ch rfl
      have hcg : cg < ctrs.length := hg cg rfl
      have hchg : ch ≠ cg := fun hc => hne (by rw [hc])
      refine ⟨rfl, fun j => ?_⟩
      simp only [invalidateHandle]
      rw [useAt_incAt _ cg j (by rw [length_decAt]; exact hcg),
        useAt_decAt ctrs ch cg hch, useAt_decAt ctrs ch j hch,
        if_neg (fun hc : cg = ch => hchg hc.symm)]
      by_cases hjg : j = cg
      · subst hjg
        simp [hchg]
      · by_cases hjh : j = ch
        · subst hjh
          simp [hchg, hjg]
        · have f1 : ¬ ch = j := fun hc => hjh hc.symm
          have f2 : ¬ cg = j := fun hc => hjg hc.symm
          simp [hjg, hjh, f1, f2]

/-- Witness for C4: a two-entry counter heap; same-target assignment changes
nothing, different-target assignment moves one unit from entry 0 to entry 1. -/
theorem claim4_assign_counts_witness :
    assignHandle [⟨0, 1⟩, ⟨1, 1⟩] (some 0) (some 0) = ([⟨0, 1⟩, ⟨1, 1⟩], some 0)
    ∧ useAt (assignHandle [⟨0, 1⟩, ⟨1, 1⟩] (some 0) (some 1)).1 0 = 0
    ∧ useAt (assignHandle [⟨0, 1⟩, ⟨1, 1⟩] (some 0) (some 1)).1 1 = 2 := by
  have hsame := claim4_assign_counts [⟨0, 1⟩, ⟨1, 1⟩] (some 0) (some 0) (by decide) (by decide)
  have hdiff := claim4_assign_counts [⟨0, 1⟩, ⟨1, 1⟩] (some 0) (some 1) (by decide) (by decide)
  refine ⟨hsame.1 rfl, ?_, ?_⟩
  · rw [(hdiff.2 (by decide)).2 0]
    decide
  · rw [(hdiff.2 (by decide)).2 1]
    decide

/-- Claim C9: dereferencing fails with `InvalidHandle` exactly when the handle
references no entry; a handle referencing a live entry dereferences to the
stored value (the model's dereference function consumes no state and returns
none, matching the source's `const` read path). -/
theorem claim9_deref {K V : Type} [DecidableEq K] [DecidableEq V]
    (c : Cache K V) (h : Handle)
    (hnodup : (c.entries.map (fun e => e.cid)).Nodup) :
    (derefHandle c h = .error .invalidHandle ↔ h = none)
    ∧ (∀ cid ∈ h, ∀ e ∈ c.entries, e.cid = cid → derefHandle c h = .ok e.val) := by
  constructor
  · constructor
    · intro herr
      cases h with
      | none => rfl
      | some cid =>
        exfalso
        simp only [derefHandle] at herr
        cases hfind : c.entries.find? (fun e => decide (e.cid = cid)) with
        | none => rw [hfind] at herr; cases herr
        | some e => rw [hfind] at herr; cases herr
    · intro hnone
      subst hnone
      rfl
  · intro cid hcid e he hecid
    have hh : h = some cid := hcid
    subst hh
    simp only [derefHandle]
    cases hfind : c.entries.find? (fun e' => decide (e'.cid = cid)) with
    | none =>
      rw [List.find?_eq_none] at hfind
      exact absurd (by simpa using hecid) (hfind e he)
    | some e' =>
      have hmem' : e' ∈ c.entries := List.mem_of_find?_eq_some hfind
      have hcid' : e'.cid = cid := by simpa using List.find?_some hfind
      have heq : e' = e :=
        List.inj_on_of_nodup_map hnodup hmem' he (by rw [hcid', hecid])
      rw [heq]

/-- Witness for C9: in the one-entry cache, the null handle dereferences to
`InvalidHandle` and a handle on the entry dereferences to the stored 97. -/
theorem claim9_deref_witness :
    derefHandle (run [Op.emplaceOp 0 97]).cache (none : Handle) = .error .invalidHandle
    ∧ derefHandle (run [Op.emplaceOp 0 97]).cache (some 0) = .ok 97 := by
  have h1 := claim9_deref (run [Op.emplaceOp 0 97]).cache (none : Handle) (by decide)
  have h2 := claim9_deref (run [Op.emplaceOp 0 97]).cache (some 0) (by decide)
  exact ⟨h1.1.mpr rfl, h2.2 0 rfl ⟨0, 97, 0⟩ (by decide) (by decide)⟩

/-- Claim C2: starting from a cache that does not contain `k` (and whose
counter indices are in range), a second `emplace` of `k` returns a handle to
the first entry, that handle dereferences to `v1` (the stored value is not
replaced), and the primary map has grown by exactly one entry after both
calls. -/
theorem claim2_insert_insert {K V : Type} [DecidableEq K] [DecidableEq V]
    (c : Cache K V) (k : K) (v1 v2 : V)
    (hfresh : ∀ e ∈ c.entries, e.key ≠ k)
    (hbound : ∀ e ∈ c.entries, e.cid < c.ctrs.length) :
    (emplace (emplace c k v1).2 k v2).1 = (emplace c k v1).1
    ∧ derefHandle (emplace (emplace c k v1).2 k v2).2
        (emplace (emplace c k v1).2 k v2).1 = .ok v1
    ∧ (emplace (emplace c k v1).2 k v2).2.entries.length = c.entries.length + 1 := by
  have hfind1 : c.entries.find? (fun e => decide (e.key = k)) = none :=
    List.find?_eq_none.mpr (fun e he => by simpa using hfresh e he)
  have h1 : emplace c k v1
      = (some c.ctrs.length,
         { next := (c.next + 1) % sizeMod
           ctrs := incAt (c.ctrs ++ [⟨c.next % sizeMod, 0⟩]) c.ctrs.length
           entries := c.entries ++ [⟨k, v1, c.ctrs.length⟩]
           counts :=
             if c.counts.any (fun p => decide (p.1 = k)) then
               c.counts.map (fun p => if p.1 = k then (k, c.ctrs.length) else p)
             else
               c.counts ++ [(k, c.ctrs.length)] }) := by
    simp only [emplace, hfind1]
  have hfind2 : (c.entries ++ [(⟨k, v1, c.ctrs.length⟩ : CEntry K V)]).find?
      (fun e => decide (e.key = k)) = some (⟨k, v1, c.ctrs.length⟩ : CEntry K V) := by
    rw [List.find?_append, hfind1]
    simp
  have h2 : emplace (emplace c k v1).2 k v2
      = (some c.ctrs.length,
         { next := (c.next + 1) % sizeMod
           ctrs := incAt (incAt (c.ctrs ++ [⟨c.next % sizeMod, 0⟩]) c.ctrs.length)
             c.ctrs.length
           entries := c.entries ++ [(⟨k, v1, c.ctrs.length⟩ : CEntry K V)]
           counts :=
             if c.counts.any (fun p => decide (p.1 = k)) then
               c.counts.map (fun p => if p.1 = k then (k, c.ctrs.length) else p)
             else
               c.counts ++ [(k, c.ctrs.length)] }) := by
    rw [h1]
    simp only [emplace]
    rw [hfind2]
  have hfindc : c.entries.find? (fun e => decide (e.cid = c.ctrs.length)) = none :=
    List.find?_eq_none.mpr
      (fun e he => by simpa using Nat.ne_of_lt (hbound e he))
  refine ⟨by rw [h2, h1], ?_, ?_⟩
  · rw [h2]
    simp only [derefHandle]
    rw [List.find?_append, hfindc]
    simp
  · rw [h2]
    simp

/-- Witness for C2 on the empty cache with key 0 and values 97 and 41. -/
theorem claim2_insert_insert_witness :
    (emplace (emplace (Cache.init Nat Nat) 0 97).2 0 41).1
        = (emplace (Cache.init Nat Nat) 0 97).1
    ∧ derefHandle (emplace (emplace (Cache.init Nat Nat) 0 97).2 0 41).2
        (emplace (emplace (Cache.init Nat Nat) 0 97).2 0 41).1 = .ok 97
    ∧ (emplace (emplace (Cache.init Nat Nat) 0 97).2 0 41).2.entries.length
        = (Cache.init Nat Nat).entries.length + 1 :=
  claim2_insert_insert (Cache.init Nat Nat) 0 97 41 (by decide) (by decide)

/-- Claim C5: `entry_for` scans the auxiliary map for keys accepted by the
support predicate: it returns a null handle when no row matches, defers to
`at(match)` when exactly one key matches, and fails with `AmbiguousSupport`
when more than one key matches. -/
theorem claim5_entry_for {K V : Type} [DecidableEq K] (c : Cache K V)
    (sup : K → Bool) :
    ((∀ p ∈ c.counts, sup p.1 = false) → entryFor c sup = .ok (none, c))
    ∧ (∀ m, (c.counts.filter (fun p => sup p.1)).map Prod.fst = [m] →
        entryFor c sup = .ok (atKey c m))
    ∧ (∀ m1 m2 rest,
        (c.counts.filter (fun p => sup p.1)).map Prod.fst = m1 :: m2 :: rest →
        entryFor c sup = .error .ambiguousSupport) := by
  refine ⟨?_, ?_, ?_⟩
  · intro hall
    have hnil : c.counts.filter (fun p => sup p.1) = [] :=
      List.filter_eq_nil_iff.mpr (fun p hp => by simp [hall p hp])
    unfold entryFor
    rw [hnil]
    rfl
  · intro m hm
    unfold entryFor
    rw [hm]
  · intro m1 m2 rest hm
    unfold entryFor
    rw [hm]

/-- Witness for C5 on a two-row cache: a predicate accepting nothing, one
accepting exactly key 1, and one accepting both keys. -/
theorem claim5_entry_for_witness :
    entryFor (run [Op.emplaceOp 0 10, Op.emplaceOp 1 11]).cache (fun _ => false)
        = .ok (none, (run [Op.emplaceOp 0 10, Op.emplaceOp 1 11]).cache)
    ∧ entryFor (run [Op.emplaceOp 0 10, Op.emplaceOp 1 11]).cache
          (fun k => decide (k = 1))
        = .ok (atKey (run [Op.emplaceOp 0 10, Op.emplaceOp 1 11]).cache 1)
    ∧ entryFor (run [Op.emplaceOp 0 10, Op.emplaceOp 1 11]).cache (fun _ => true)
        = .error .ambiguousSupport := by
  have h := claim5_entry_for (K := Nat) (V := Nat)
  exact ⟨(h _ (fun _ => false)).1 (by decide),
    (h _ (fun k => decide (k = 1))).2.1 1 (by decide),
    (h _ (fun _ => true)).2.2 0 1 [] (by decide)⟩

/-- Claim C3: `drop_unused_but_last(n)` snapshots the `(sequence_number, key)`
pairs of the zero-count rows, sorts them descending (`std::greater` orders by
sequence number before key), does nothing when the snapshot has at most `n`
elements, and otherwise erases from the primary map exactly the keys at
positions `n` and beyond of the sorted snapshot; when the snapshot's sequence
numbers are distinct (as cache-built snapshots always are), every retained
snapshot element is more recent — has a larger sequence number — than every
erased one, regardless of keys. -/
theorem claim3_drop_unused_but_last {K V : Type} [DecidableEq K] [LinearOrder K]
    (c : Cache K V) (n : Nat) :
    (sortDescBySeq (unusedEntries c)).Perm (unusedEntries c)
    ∧ (sortDescBySeq (unusedEntries c)).Sorted pairGE
    ∧ ((unusedEntries c).length ≤ n → dropUnusedButLast c n = c)
    ∧ (n < (unusedEntries c).length →
        (dropUnusedButLast c n).entries
          = c.entries.filter (fun e =>
              decide (e.key ∉ ((sortDescBySeq (unusedEntries c)).drop n).map Prod.snd)))
    ∧ (((unusedEntries c).map Prod.fst).Nodup →
        ∀ p ∈ (sortDescBySeq (unusedEntries c)).take n,
        ∀ q ∈ (sortDescBySeq (unusedEntries c)).drop n, q.1 < p.1) := by
  have hperm : (sortDescBySeq (unusedEntries c)).Perm (unusedEntries c) :=
    List.perm_insertionSort pairGE (unusedEntries c)
  have hsorted : (sortDescBySeq (unusedEntries c)).Sorted pairGE :=
    List.sorted_insertionSort pairGE (unusedEntries c)
  have hlen : (sortDescBySeq (unusedEntries c)).length = (unusedEntries c).length :=
    hperm.length_eq
  refine ⟨hperm, hsorted, ?_, ?_, ?_⟩
  · intro hle
    unfold dropUnusedButLast
    rw [if_pos (by rw [hlen]; exact hle)]
  · intro hlt
    unfold dropUnusedButLast
    rw [if_neg (by rw [hlen]; exact Nat.not_le.mpr hlt)]
    rw [foldl_filter_eq_filter (fun (p : Nat × K) (e : CEntry K V) => decide (e.key ≠ p.2))]
    apply List.filter_congr
    intro e _
    apply decide_eq_decide.mpr
    constructor
    · intro hall hmem
      rcases List.mem_map.mp hmem with ⟨p, hp, hpe⟩
      exact (of_decide_eq_true (hall p hp)) hpe.symm
    · intro hnot p hp
      apply decide_eq_true
      intro hkey
      exact hnot (List.mem_map.mpr ⟨p, hp, hkey.symm⟩)
  · intro hnd p hp q hq
    have hmapnd : ((sortDescBySeq (unusedEntries c)).map Prod.fst).Nodup :=
      ((hperm.map Prod.fst).nodup_iff).mpr hnd
    have hdnd : (sortDescBySeq (unusedEntries c)).Nodup :=
      List.Nodup.of_map Prod.fst hmapnd
    have hcut : ∀ a ∈ (sortDescBySeq (unusedEntries c)).take n,
        ∀ b ∈ (sortDescBySeq (unusedEntries c)).drop n, pairGE a b := by
      have h' : ((sortDescBySeq (unusedEntries c)).take n
          ++ (sortDescBySeq (unusedEntries c)).drop n).Pairwise pairGE := by
        rw [List.take_append_drop]
        exact hsorted
      exact fun a ha b hb => (List.pairwise_append.mp h').2.2 a ha b hb
    rcases hcut p hp q hq with hlt | ⟨heq, _⟩
    · exact hlt
    · exfalso
      have hpd : p ∈ sortDescBySeq (unusedEntries c) := List.take_subset n _ hp
      have hqd : q ∈ sortDescBySeq (unusedEntries c) := List.drop_subset n _ hq
      have hpq : p = q := List.inj_on_of_nodup_map hmapnd hpd hqd heq.symm
      have hnotin : p ∉ (sortDescBySeq (unusedEntries c)).drop n := by
        have hd2 : ((sortDescBySeq (unusedEntries c)).take n
            ++ (sortDescBySeq (unusedEntries c)).drop n).Nodup := by
          rw [List.take_append_drop]
          exact hdnd
        exact (List.disjoint_of_nodup_append hd2) hp
      exact hnotin (by rw [hpq]; exact hq)

/-- Claim C1: in every state reachable by a sequence of fewer than `2^32`
operations, a live handle references a live entry; the entry's use count
equals the number of live handles on it (each live handle contributes exactly
one unit), hence is at least 1; and for every `n`, neither `drop_unused()`
(`n = 0`) nor `drop_unused_but_last(n)` erases that entry from the primary
map, because retention selects only entries whose use count reads zero. -/
theorem claim1_handle_pins_entry {K V : Type} [DecidableEq K] [DecidableEq V]
    [LinearOrder K] (ops : List (Op K V)) (hops : ops.length < uintMod)
    (i cid : Nat) (hh : (run ops).handles[i]? = some (some cid)) :
    ∃ e ∈ (run ops).cache.entries, e.cid = cid
      ∧ useAt (run ops).cache.ctrs cid = countRefs (run ops).handles cid
      ∧ 1 ≤ useAt (run ops).cache.ctrs cid
      ∧ ∀ n : Nat, e ∈ (dropUnusedButLast (run ops).cache n).entries := by
  have hinv := inv_run ops hops
  have hec := hinv.1.2.2.2
  have hent := hinv.2.1.1
  have hlive := hinv.2.2.1.1
  have hcnt := hinv.2.2.1.2
  have hmem : (some cid : Handle) ∈ (run ops).handles := List.getElem?_mem hh
  obtain ⟨e, he, hecid⟩ := hlive _ hmem cid rfl
  have hcid : cid < (run ops).cache.ctrs.length := hecid ▸ (hent e he).1
  have hcount : useAt (run ops).cache.ctrs cid = countRefs (run ops).handles cid :=
    hcnt cid hcid
  have hpos : 1 ≤ countRefs (run ops).handles cid := countRefs_pos_of_mem _ _ hmem
  refine ⟨e, he, hecid, hcount, by omega, ?_⟩
  intro n
  have hinv2 : Inv (step (run ops) (.dropOp n)) :=
    inv_step_drop (run ops) n (inv_run ops hops)
  have hstep : step (run ops) (.dropOp n)
      = ⟨dropUnusedButLast (run ops).cache n, (run ops).handles⟩ := by
    simp only [step]
  rw [hstep] at hinv2
  obtain ⟨e2, he2, he2cid⟩ := hinv2.2.2.1.1 _ hmem cid rfl
  have he2' : e2 ∈ (run ops).cache.entries :=
    dropUnusedButLast_entries_subset _ n he2
  have : e2 = e :=
    List.inj_on_of_nodup_map hec he2' he (by rw [he2cid, hecid])
  rw [← this]
  exact he2

/-- Witness for C1: the single-entry cache whose handle is still live; the
entry's count is 1 and the entry survives `drop_unused()`. -/
theorem claim1_handle_pins_entry_witness :
    (⟨0, 97, 0⟩ : CEntry Nat Nat) ∈ (run [Op.emplaceOp 0 97] : TState Nat Nat).cache.entries
    ∧ 1 ≤ useAt (run [Op.emplaceOp 0 97] : TState Nat Nat).cache.ctrs 0
    ∧ (⟨0, 97, 0⟩ : CEntry Nat Nat)
        ∈ (dropUnusedButLast (run [Op.emplaceOp 0 97] : TState Nat Nat).cache 0).entries := by
  obtain ⟨e, he, hecid, hcnt, hpos, hsurv⟩ :=
    claim1_handle_pins_entry (K := Nat) (V := Nat) [Op.emplaceOp 0 97]
      (by decide) 0 0 (by decide)
  have hl : (run [Op.emplaceOp 0 97] : TState Nat Nat).cache.entries
      = [⟨0, 97, 0⟩] := by decide
  have he' : e = ⟨0, 97, 0⟩ := by
    rw [hl] at he
    simpa using he
  subst he'
  exact ⟨by rw [hl]; simp, hpos, hsurv 0⟩

/-- Claim C7: the sequence numbers stamped on the counter records of a cache
built by fewer than `2^32` operations (the source documents that the `size_t`
counter never wraps in practice) are pairwise distinct and strictly increase
in creation order. -/
theorem claim7_sequence_numbers {K V : Type} [DecidableEq K] [DecidableEq V]
    [LinearOrder K] (ops : List (Op K V)) (hops : ops.length < uintMod) :
    ((run ops).cache.ctrs.map (fun ec => ec.sequence_number)).Pairwise (· < ·) := by
  have hinv := inv_run ops hops
  have hseq := hinv.2.2.2.2
  have hlen_le : (run ops).cache.ctrs.length ≤ ops.length := ctrs_length_run ops
  have hmod : uintMod < sizeMod := by
    unfold uintMod sizeMod
    norm_num
  rw [List.pairwise_iff_get]
  intro a b hab
  have ha2 : (a : Nat) < (run ops).cache.ctrs.length := by simpa using a.2
  have hb2 : (b : Nat) < (run ops).cache.ctrs.length := by simpa using b.2
  have hseqa : seqAt (run ops).cache.ctrs (a : Nat) = (a : Nat) % sizeMod :=
    hseq _ ha2
  have hseqb : seqAt (run ops).cache.ctrs (b : Nat) = (b : Nat) % sizeMod :=
    hseq _ hb2
  have hma : (a : Nat) % sizeMod = (a : Nat) := Nat.mod_eq_of_lt (by omega)
  have hmb : (b : Nat) % sizeMod = (b : Nat) := Nat.mod_eq_of_lt (by omega)
  have hga : ((run ops).cache.ctrs.map (fun ec => ec.sequence_number)).get a
      = seqAt (run ops).cache.ctrs (a : Nat) := by
    unfold seqAt
    rw [List.getElem?_eq_getElem ha2]
    simp [List.get_eq_getElem]
  have hgb : ((run ops).cache.ctrs.map (fun ec => ec.sequence_number)).get b
      = seqAt (run ops).cache.ctrs (b : Nat) := by
    unfold seqAt
    rw [List.getElem?_eq_getElem hb2]
    simp [List.get_eq_getElem]
  rw [hga, hgb, hseqa, hseqb, hma, hmb]
  exact hab

/-- Witness for C7: after two insertions the stamped sequence numbers are `0`
then `1`, pairwise increasing. -/
theorem claim7_sequence_numbers_witness :
    ((run [Op.emplaceOp 0 10, Op.emplaceOp 1 11] : TState Nat Nat).cache.ctrs.map
      (fun ec => ec.sequence_number)).Pairwise (· < ·) :=
  claim7_sequence_numbers [Op.emplaceOp 0 10, Op.emplaceOp 1 11] (by decide)

set_option maxRecDepth 4000 in
/-- Witness for C3 on a two-entry cache whose entries are both unused: with
`n = 1` the newer entry (sequence number 1) is retained and the older (0) is
erased. -/
theorem claim3_drop_unused_but_last_witness :
    (dropUnusedButLast
        (run [Op.emplaceOp 0 10, Op.emplaceOp 1 11,
          Op.invalidateOp 0, Op.invalidateOp 1] : TState Nat Nat).cache 1).entries
      = (run [Op.emplaceOp 0 10, Op.emplaceOp 1 11,
          Op.invalidateOp 0, Op.invalidateOp 1] : TState Nat Nat).cache.entries.filter (fun e =>
          decide (e.key ∉ ((sortDescBySeq (unusedEntries
            (run [Op.emplaceOp 0 10, Op.emplaceOp 1 11,
              Op.invalidateOp 0, Op.invalidateOp 1] : TState Nat Nat).cache)).drop 1).map Prod.snd))
    ∧ ((0 : Nat), (0 : Nat)).1 < ((1 : Nat), (1 : Nat)).1 := by
  have h := claim3_drop_unused_but_last
    (run [Op.emplaceOp 0 10, Op.emplaceOp 1 11,
      Op.invalidateOp 0, Op.invalidateOp 1] : TState Nat Nat).cache 1
  exact ⟨h.2.2.2.1 (by decide),
    h.2.2.2.2 (by decide) ((1 : Nat), (1 : Nat)) (by decide)
      ((0 : Nat), (0 : Nat)) (by decide)⟩

/-- Claim C10: after an eviction and before compaction, orphan auxiliary rows
still participate in `entry_for`'s scan.  Concretely: after inserting key 0,
releasing it and dropping unused entries, key 0's row is still in the
auxiliary map (exactly one row matches a probe accepted only by key 0) while
the primary map is empty, and `entry_for` returns a null handle — the match
is found but `at` misses.  After additionally inserting key 1, a probe
supported by both the orphaned key 0 and the live key 1 fails with
`AmbiguousSupport` even though exactly one live key supports it. -/
theorem claim10_orphan_rows_affect_entry_for :
    entryFor (run [Op.emplaceOp 0 10, Op.invalidateOp 0, Op.dropOp 0]
        : TState Nat Nat).cache (fun k => decide (k = 0))
      = .ok (none, (run [Op.emplaceOp 0 10, Op.invalidateOp 0, Op.dropOp 0]
        : TState Nat Nat).cache)
    ∧ ((run [Op.emplaceOp 0 10, Op.invalidateOp 0, Op.dropOp 0]
        : TState Nat Nat).cache.counts.filter (fun p => decide (p.1 = 0))).length = 1
    ∧ (run [Op.emplaceOp 0 10, Op.invalidateOp 0, Op.dropOp 0]
        : TState Nat Nat).cache.entries = []
    ∧ entryFor (run [Op.emplaceOp 0 10, Op.invalidateOp 0, Op.dropOp 0,
          Op.emplaceOp 1 11] : TState Nat Nat).cache (fun k => decide (k ≤ 1))
      = .error .ambiguousSupport
    ∧ ((run [Op.emplaceOp 0 10, Op.invalidateOp 0, Op.dropOp 0,
          Op.emplaceOp 1 11] : TState Nat Nat).cache.entries.filter
        (fun e => decide (e.key ≤ 1))).length = 1 :=
  ⟨rfl, by decide, by decide, rfl, by decide⟩

/-- Claim C6, proved of the repaired compaction (the shipped orphan-row
lookup compares the counter pointer with the key and does not type-check when
instantiated; see `shrinkToFit`): `shrink_to_fit` first performs
`drop_unused()` and then rebuilds the auxiliary map so that exactly the keys
of live entries remain; afterwards `capacity()` equals `size()` and the two
maps hold the same keys; and no other operation narrows the auxiliary map —
`emplace`, `at`, `entry_for` and `drop_unused_but_last` never decrease its
cardinality. -/
theorem claim6_shrink_to_fit {K V : Type} [DecidableEq K] [DecidableEq V]
    [LinearOrder K] (s : TState K V) (hinv : Inv s) :
    ((shrinkToFit s.cache).capacity = (shrinkToFit s.cache).size
      ∧ ∀ k : K, (∃ p ∈ (shrinkToFit s.cache).counts, p.1 = k)
          ↔ (∃ e ∈ (shrinkToFit s.cache).entries, e.key = k))
    ∧ (∀ (k : K) (v : V),
        s.cache.counts.length ≤ (emplace s.cache k v).2.counts.length)
    ∧ (∀ k : K, s.cache.counts.length ≤ (atKey s.cache k).2.counts.length)
    ∧ (∀ (sup : K → Bool) (r : Handle × Cache K V), entryFor s.cache sup = .ok r →
        s.cache.counts.length ≤ r.2.counts.length)
    ∧ (∀ n : Nat,
        s.cache.counts.length ≤ (dropUnusedButLast s.cache n).counts.length) := by
  obtain ⟨⟨hek, hck, hcc, hec⟩, ⟨hent, hcb⟩, ⟨hlive, hcnt⟩, ⟨hnext, hseq⟩⟩ := hinv
  have hc1c : (dropUnusedButLast s.cache 0).counts = s.cache.counts :=
    dropUnusedButLast_counts_eq _ 0
  have hc1t : (dropUnusedButLast s.cache 0).ctrs = s.cache.ctrs :=
    dropUnusedButLast_ctrs_eq _ 0
  have hU : unusedEntries (dropUnusedButLast s.cache 0) = unusedEntries s.cache := by
    unfold unusedEntries
    rw [hc1c, hc1t]
  have hcounts' : (shrinkToFit s.cache).counts
      = s.cache.counts.filter
          (fun p => decide (p.1 ∉ (unusedEntries s.cache).map Prod.snd)) := by
    show ((unusedEntries (dropUnusedButLast s.cache 0)).foldl
        (fun l p => l.eraseP (fun q => decide (q.1 = p.2)))
        (dropUnusedButLast s.cache 0).counts) = _
    rw [hU, hc1c]
    have h := foldl_eraseP_eq_filter ((unusedEntries s.cache).map Prod.snd)
      s.cache.counts hck
    rw [List.foldl_map] at h
    exact h
  have hmemU : ∀ x : K, x ∈ (unusedEntries s.cache).map Prod.snd
      ↔ ∃ cid, (x, cid) ∈ s.cache.counts ∧ useAt s.cache.ctrs cid = 0 := by
    intro x
    constructor
    · intro hx
      rcases List.mem_map.mp hx with ⟨p, hpU, hpx⟩
      rcases List.mem_filterMap.mp hpU with ⟨row, hrow, hrowp⟩
      cases hec' : s.cache.ctrs[row.2]? with
      | none => rw [hec'] at hrowp; cases hrowp
      | some ec =>
        rw [hec'] at hrowp
        dsimp only at hrowp
        by_cases hzero : ec.use_count = 0
        · rw [if_pos hzero] at hrowp
          have hxrow : row.1 = x := by
            have hpe : (ec.sequence_number, row.1) = p := by simpa using hrowp
            rw [← hpe] at hpx
            simpa using hpx
          refine ⟨row.2, ?_, ?_⟩
          · rw [← hxrow]
            exact hrow
          · unfold useAt
            rw [hec']
            exact hzero
        · rw [if_neg hzero] at hrowp
          cases hrowp
    · rintro ⟨cid, hrow, hzero⟩
      have hlt : cid < s.cache.ctrs.length := hcb (x, cid) hrow
      cases hec' : s.cache.ctrs[cid]? with
      | none =>
        simp [List.getElem?_eq_getElem hlt] at hec'
      | some ec =>
        have hecz : ec.use_count = 0 := by
          have huse : useAt s.cache.ctrs cid = ec.use_count := by
            unfold useAt
            rw [hec']
          omega
        apply List.mem_map.mpr
        refine ⟨(ec.sequence_number, x), ?_, rfl⟩
        apply List.mem_filterMap.mpr
        refine ⟨(x, cid), hrow, ?_⟩
        show (match s.cache.ctrs[cid]? with
          | some ec => if ec.use_count = 0 then some (ec.sequence_number, x) else none
          | none => none) = _
        rw [hec']
        dsimp only
        rw [if_pos hecz]
  have hcounts2 : (shrinkToFit s.cache).counts
      = s.cache.counts.filter (fun p => decide (useAt s.cache.ctrs p.2 ≠ 0)) := by
    rw [hcounts']
    apply List.filter_congr
    intro p hp
    apply decide_eq_decide.mpr
    apply not_congr
    rw [hmemU p.1]
    constructor
    · rintro ⟨cid, hc, hz⟩
      have hpe : (p.1, cid) = p := List.inj_on_of_nodup_map hck hc hp rfl
      have hcid : cid = p.2 := by
        rw [Prod.ext_iff] at hpe
        simpa using hpe.2
      rw [← hcid]
      exact hz
    · intro hz
      exact ⟨p.2, hp, hz⟩
  have hperm : (sortDescBySeq (unusedEntries s.cache)).Perm (unusedEntries s.cache) :=
    List.perm_insertionSort _ _
  have hentries2 : (shrinkToFit s.cache).entries
      = s.cache.entries.filter (fun e => decide (useAt s.cache.ctrs e.cid ≠ 0)) := by
    show (dropUnusedButLast s.cache 0).entries = _
    rw [dropUnused_entries_char]
    apply List.filter_congr
    intro e he
    apply decide_eq_decide.mpr
    constructor
    · intro hall hz
      have hrowmem : (e.key, e.cid) ∈ s.cache.counts :=
        lookupKey_some_mem _ _ _ (hent e he).2
      have hUk : e.key ∈ (unusedEntries s.cache).map Prod.snd :=
        (hmemU e.key).mpr ⟨e.cid, hrowmem, hz⟩
      rcases List.mem_map.mp hUk with ⟨p, hpU, hpk⟩
      have hpD : p ∈ sortDescBySeq (unusedEntries s.cache) := hperm.mem_iff.mpr hpU
      exact (of_decide_eq_true (hall p hpD)) hpk.symm
    · intro hnz p hpD
      apply decide_eq_true
      intro hkey
      have hpU : p ∈ unusedEntries s.cache := hperm.subset hpD
      have hUk : p.2 ∈ (unusedEntries s.cache).map Prod.snd :=
        List.mem_map.mpr ⟨p, hpU, rfl⟩
      rcases (hmemU p.2).mp hUk with ⟨cid, hrow, hz⟩
      rw [← hkey] at hrow
      have hrowmem : (e.key, e.cid) ∈ s.cache.counts :=
        lookupKey_some_mem _ _ _ (hent e he).2
      have hcideq : cid = e.cid := by
        have hpe : (e.key, cid) = (e.key, e.cid) :=
          List.inj_on_of_nodup_map hck hrow hrowmem rfl
        rw [Prod.ext_iff] at hpe
        simpa using hpe.2
      rw [hcideq] at hz
      exact hnz hz
  have hkeys : ∀ k : K, (∃ p ∈ (shrinkToFit s.cache).counts, p.1 = k)
      ↔ (∃ e ∈ (shrinkToFit s.cache).entries, e.key = k) := by
    intro k
    rw [hcounts2, hentries2]
    constructor
    · rintro ⟨p, hp, hpk⟩
      obtain ⟨hpc, hpnz⟩ := List.mem_filter.mp hp
      have hpnz' : useAt s.cache.ctrs p.2 ≠ 0 := of_decide_eq_true hpnz
      have hlt : p.2 < s.cache.ctrs.length := hcb p hpc
      have hpos : 0 < countRefs s.handles p.2 := by
        have := hcnt p.2 hlt
        omega
      obtain ⟨e, he, hecid⟩ := hlive _ (mem_of_countRefs_pos _ _ hpos) p.2 rfl
      have hrowe : (e.key, e.cid) ∈ s.cache.counts :=
        lookupKey_some_mem _ _ _ (hent e he).2
      have hpe : p = (e.key, e.cid) := by
        apply List.inj_on_of_nodup_map hcc hpc hrowe
        simpa using hecid.symm
      refine ⟨e, List.mem_filter.mpr ⟨he, ?_⟩, ?_⟩
      · apply decide_eq_true
        rw [hecid]
        exact hpnz'
      · rw [hpe] at hpk
        simpa using hpk
    · rintro ⟨e, he, hek'⟩
      obtain ⟨hee, henz⟩ := List.mem_filter.mp he
      exact ⟨(e.key, e.cid),
        List.mem_filter.mpr ⟨lookupKey_some_mem _ _ _ (hent e hee).2, henz⟩, hek'⟩
  have hcap : (shrinkToFit s.cache).capacity = (shrinkToFit s.cache).size := by
    unfold Cache.capacity Cache.size
    have hnd1 : ((shrinkToFit s.cache).counts.map Prod.fst).Nodup := by
      rw [hcounts2]
      exact hck.sublist ((List.filter_sublist _).map _)
    have hnd2 : ((shrinkToFit s.cache).entries.map (fun e => e.key)).Nodup := by
      rw [hentries2]
      exact hek.sublist ((List.filter_sublist _).map _)
    have hlen := nodup_mem_length_eq _ _ hnd1 hnd2 (by
      intro x
      constructor
      · intro hx
        rcases List.mem_map.mp hx with ⟨p, hp, hpx⟩
        rcases (hkeys x).mp ⟨p, hp, hpx⟩ with ⟨e, he, hex⟩
        exact List.mem_map.mpr ⟨e, he, hex⟩
      · intro hx
        rcases List.mem_map.mp hx with ⟨e, he, hex⟩
        rcases (hkeys x).mpr ⟨e, he, hex⟩ with ⟨p, hp, hpx⟩
        exact List.mem_map.mpr ⟨p, hp, hpx⟩)
    rw [List.length_map, List.length_map] at hlen
    exact hlen
  refine ⟨⟨hcap, hkeys⟩, ?_, ?_, ?_, ?_⟩
  · intro k v
    cases hfind : s.cache.entries.find? (fun e => decide (e.key = k)) with
    | some e => simp [emplace, hfind]
    | none =>
      simp only [emplace, hfind]
      by_cases hany : s.cache.counts.any (fun p => decide (p.1 = k)) = true
      · rw [if_pos hany]
        simp
      · rw [if_neg hany]
        simp
  · intro k
    cases hfind : s.cache.entries.find? (fun e => decide (e.key = k)) with
    | some e => simp [atKey, hfind]
    | none => simp [atKey, hfind]
  · intro sup r hr
    unfold entryFor at hr
    cases hms : (s.cache.counts.filter (fun p => sup p.1)).map Prod.fst with
    | nil =>
      rw [hms] at hr
      have hre := Except.ok.inj hr
      rw [← hre]
    | cons m tl =>
      cases tl with
      | nil =>
        rw [hms] at hr
        have hre := Except.ok.inj hr
        rw [← hre]
        cases hfind : s.cache.entries.find? (fun e => decide (e.key = m)) with
        | some e => simp [atKey, hfind]
        | none => simp [atKey, hfind]
      | cons m2 tl2 =>
        rw [hms] at hr
        cases hr
  · intro n
    rw [dropUnusedButLast_counts_eq]

/-- Witness for C6 at a cache holding one orphan auxiliary row (key 0) and
one live entry (key 1): after compaction capacity equals size, and a
`drop_unused_but_last` call does not shrink the auxiliary map. -/
theorem claim6_shrink_to_fit_witness :
    (shrinkToFit (run [Op.emplaceOp 0 10, Op.invalidateOp 0, Op.dropOp 0,
        Op.emplaceOp 1 11] : TState Nat Nat).cache).capacity
      = (shrinkToFit (run [Op.emplaceOp 0 10, Op.invalidateOp 0, Op.dropOp 0,
        Op.emplaceOp 1 11] : TState Nat Nat).cache).size
    ∧ (run [Op.emplaceOp 0 10, Op.invalidateOp 0, Op.dropOp 0,
        Op.emplaceOp 1 11] : TState Nat Nat).cache.counts.length
      ≤ (dropUnusedButLast (run [Op.emplaceOp 0 10, Op.invalidateOp 0, Op.dropOp 0,
        Op.emplaceOp 1 11] : TState Nat Nat).cache 0).counts.length := by
  have h := claim6_shrink_to_fit
    (run [Op.emplaceOp 0 10, Op.invalidateOp 0, Op.dropOp 0,
      Op.emplaceOp 1 11] : TState Nat Nat) (by decide)
  exact ⟨h.1.1, h.2.2.2.2 0⟩

end ConcurrentCache
